import Mathlib

/-!
Verification of the comics/price monitor core (extractor, diff engine,
notification formatter, message chunking) against its specification.

The TypeScript source is shallowly embedded: pure functions become Lean
functions; the `Effect`-ful monitor checks become pure functions from the
extraction results and the in-memory state map to a result, an updated
state map and the list of notifications sent.  JavaScript objects
(`Record<string, T>`) are modelled as association lists in insertion
order, and the JS `Map` with its replace-in-place / append semantics is
modelled explicitly (`mapInsert` below).  JS strings are modelled as Lean
`String`; lengths count unicode scalar values where JS counts UTF-16 code
units (identical on the ASCII/BMP data the system handles).
-/

namespace Monitor

/-- Lookup in an association list (first entry wins), i.e. JS object
property access `obj[k]` returning `undefined` as `none`. -/
def alistLookup (m : List (String × α)) (k : String) : Option α :=
  (m.find? (fun p => p.1 = k)).map (fun p => p.2)

/-- The JS object spread update `\x7b...s, [k]: v\x7d`: an existing key keeps its
position and gets the new value, a fresh key is appended at the end. -/
def alistSet (m : List (String × α)) (k : String) (v : α) : List (String × α) :=
  if m.any (fun p => p.1 = k) then
    m.map (fun p => if p.1 = k then (k, v) else p)
  else m ++ [(k, v)]

/-- One insertion into a JS `Map`: `map.set(k, v)` replaces in place or
appends, preserving first-insertion key order. -/
def mapInsert (m : List (String × α)) (k : String) (v : α) : List (String × α) :=
  alistSet m k v

/-- `new Map(xs.map(x => [key x, x]))`: later entries with the same key
overwrite earlier ones in place (last write wins). -/
def mapOfItems (key : α → String) (xs : List α) : List (String × α) :=
  xs.foldl (fun m x => mapInsert m (key x) x) []

-- ── JSON serialization of the persisted values ──────────────────────────

/-- Lower-case hex digit, as emitted by `JSON.stringify` in `\u00XX`
escapes. -/
def hexDigitCh (n : Nat) : Char :=
  if n < 10 then Char.ofNat (48 + n) else Char.ofNat (87 + n)

/-- How `JSON.stringify` escapes one character inside a string literal. -/
def escChar (c : Char) : List Char :=
  if c = '"' then ['\\', '"']
  else if c = '\\' then ['\\', '\\']
  else if c = '\x08' then ['\\', 'b']
  else if c = '\t' then ['\\', 't']
  else if c = '\n' then ['\\', 'n']
  else if c = '\x0c' then ['\\', 'f']
  else if c = '\r' then ['\\', 'r']
  else if c.toNat < 32 then
    ['\\', 'u', '0', '0', hexDigitCh (c.toNat / 16), hexDigitCh (c.toNat % 16)]
  else [c]

/-- `JSON.stringify` of a single string. -/
def quoteStr (s : String) : List Char :=
  '"' :: (s.data.map escChar).flatten ++ ['"']

/-- `JSON.stringify` of an array of strings (the persisted value of a list
monitor), e.g. `["a","b"]`. -/
def serializeIds (ids : List String) : String :=
  ⟨'[' :: (((ids.map quoteStr).intersperse [',']).flatten ++ [']'])⟩

/-- Value of an ASCII hex digit. -/
def hexVal (c : Char) : Option Nat :=
  if '0' ≤ c ∧ c ≤ '9' then some (c.toNat - 48)
  else if 'a' ≤ c ∧ c ≤ 'f' then some (c.toNat - 87)
  else if 'A' ≤ c ∧ c ≤ 'F' then some (c.toNat - 55)
  else none

/-- Decode one JSON string-escape character (the character after `\`)
together with any extra input it consumes.  Returns the decoded character
and the remaining input. -/
def decodeEsc (e : Char) (rest : List Char) : Option (Char × List Char) :=
  if e = '"' then some ('"', rest)
  else if e = '\\' then some ('\\', rest)
  else if e = '/' then some ('/', rest)
  else if e = 'b' then some ('\x08', rest)
  else if e = 't' then some ('\t', rest)
  else if e = 'n' then some ('\n', rest)
  else if e = 'f' then some ('\x0c', rest)
  else if e = 'r' then some ('\r', rest)
  else if e = 'u' then
    match rest with
    | h1 :: h2 :: h3 :: h4 :: rest4 =>
      match hexVal h1, hexVal h2, hexVal h3, hexVal h4 with
      | some a, some b, some c, some d =>
        let n := ((a * 16 + b) * 16 + c) * 16 + d
        if n.isValidChar then some (Char.ofNat n, rest4) else none
      | _, _, _, _ => none
    | _ => none
  else none

/-- Fueled parser for the body of a JSON string literal (input starts just
after the opening quote); returns the decoded content and the input after
the closing quote.  Models `JSON.parse`'s string grammar. -/
def parseStrBody : Nat → List Char → Option (List Char × List Char)
  | 0, _ => none
  | _, [] => none
  | fuel + 1, c :: rest =>
    if c = '"' then some ([], rest)
    else if c = '\\' then
      match rest with
      | [] => none
      | e :: rest2 =>
        (decodeEsc e rest2).bind (fun p =>
          (parseStrBody fuel p.2).map (fun q => (p.1 :: q.1, q.2)))
    else (parseStrBody fuel rest).map (fun q => (c :: q.1, q.2))

/-- Fueled parser for the elements of a non-empty JSON string array
(input starts just after `[` or after a `,`); succeeds only when the
array closes with `]` at the very end of the input. -/
def parseElems : Nat → List Char → Option (List String)
  | 0, _ => none
  | fuel + 1, l =>
    match l with
    | '"' :: rest =>
      (parseStrBody (fuel + 1) rest).bind (fun p =>
        match p.2 with
        | [']'] => some [⟨p.1⟩]
        | ',' :: rest2 => (parseElems fuel rest2).map (fun ss => (⟨p.1⟩ : String) :: ss)
        | _ => none)
    | _ => none

/-- `JSON.parse(prevRaw) as string[]`, modelled strictly for the exact
format `JSON.stringify` emits for string arrays (no interspersed
whitespace, which the system never writes); any other input is a parse
failure. -/
def parseIds (s : String) : Option (List String) :=
  match s.data with
  | '[' :: ']' :: [] => some []
  | '[' :: rest => parseElems (rest.length + 1) rest
  | _ => none

-- ── Round trip of the persisted-id serialization ────────────────────────

theorem hexVal_hexDigitCh : ∀ n : Nat, n < 16 → hexVal (hexDigitCh n) = some n := by
  decide

theorem escChar_length_pos (c : Char) : 0 < (escChar c).length := by
  unfold escChar
  repeat' split
  all_goals simp

theorem length_le_flatten_escChar (l : List Char) :
    l.length ≤ ((l.map escChar).flatten).length := by
  induction l with
  | nil => simp
  | cons c l ih =>
    have := escChar_length_pos c
    simp only [List.map_cons, List.flatten_cons, List.length_append, List.length_cons]
    omega

theorem charToNat_isValidChar (c : Char) : c.toNat.isValidChar := c.valid

theorem decodeEsc_u (c : Char) (h : c.toNat < 32) (rest : List Char) :
    decodeEsc 'u' ('0' :: '0' :: hexDigitCh (c.toNat / 16) :: hexDigitCh (c.toNat % 16) :: rest)
      = some (c, rest) := by
  have hdiv : c.toNat / 16 < 16 := by omega
  have hmod : c.toNat % 16 < 16 := Nat.mod_lt _ (by omega)
  have h0 : hexVal '0' = some 0 := by decide
  have hn : (c.toNat / 16) * 16 + c.toNat % 16 = c.toNat := by
    have := Nat.div_add_mod c.toNat 16
    omega
  simp [decodeEsc, h0, hexVal_hexDigitCh _ hdiv, hexVal_hexDigitCh _ hmod, hn,
    charToNat_isValidChar c, Char.ofNat_toNat]

theorem parseStrBody_escaped (s : List Char) (tail : List Char) :
    ∀ fuel : Nat, s.length + 1 ≤ fuel →
      parseStrBody fuel ((s.map escChar).flatten ++ '"' :: tail) = some (s, tail) := by
  induction s with
  | nil =>
    intro fuel hf
    match fuel, hf with
    | fuel + 1, _ => simp [parseStrBody]
  | cons c s ih =>
    intro fuel hf
    match fuel, hf with
    | fuel + 1, hf =>
      have hfuel : s.length + 1 ≤ fuel := by
        simp only [List.length_cons] at hf; omega
      have hrec := ih fuel hfuel
      by_cases h1 : c = '"'
      · subst h1; simp [escChar, parseStrBody, decodeEsc, hrec]
      by_cases h2 : c = '\\'
      · subst h2; simp [escChar, parseStrBody, decodeEsc, hrec]
      by_cases h3 : c = '\x08'
      · subst h3; simp [escChar, parseStrBody, decodeEsc, hrec]
      by_cases h4 : c = '\t'
      · subst h4; simp [escChar, parseStrBody, decodeEsc, hrec]
      by_cases h5 : c = '\n'
      · subst h5; simp [escChar, parseStrBody, decodeEsc, hrec]
      by_cases h6 : c = '\x0c'
      · subst h6; simp [escChar, parseStrBody, decodeEsc, hrec]
      by_cases h7 : c = '\r'
      · subst h7; simp [escChar, parseStrBody, decodeEsc, hrec]
      by_cases h8 : c.toNat < 32
      · simp only [List.map_cons, List.flatten_cons, escChar, if_neg h1, if_neg h2,
          if_neg h3, if_neg h4, if_neg h5, if_neg h6, if_neg h7, if_pos h8,
          List.cons_append, List.nil_append, List.append_assoc]
        simp only [parseStrBody, reduceIte]
        rw [decodeEsc_u c h8]
        simp [hrec]
      · simp only [List.map_cons, List.flatten_cons, escChar, if_neg h1, if_neg h2,
          if_neg h3, if_neg h4, if_neg h5, if_neg h6, if_neg h7, if_neg h8,
          List.cons_append, List.nil_append, List.append_assoc]
        simp [parseStrBody, h1, h2, hrec]

theorem parseElems_serialize :
    ∀ (ids : List String), ids ≠ [] →
    ∀ fuel : Nat, (((ids.map quoteStr).intersperse [',']).flatten ++ [']']).length ≤ fuel →
      parseElems fuel (((ids.map quoteStr).intersperse [',']).flatten ++ [']']) = some ids := by
  intro ids
  induction ids with
  | nil => intro h; exact absurd rfl h
  | cons a rest ih =>
    intro _ fuel hf
    have hlen := length_le_flatten_escChar a.data
    have hquote : a.data.length + 2 ≤ (quoteStr a).length := by
      simp only [quoteStr, List.length_cons, List.length_append]
      omega
    match rest with
    | [] =>
      have hsplit : ((([a] : List String).map quoteStr).intersperse [',']).flatten ++ [']']
          = quoteStr a ++ [']'] := by
        simp
      rw [hsplit] at hf ⊢
      match fuel, hf with
      | fuel + 1, hf =>
        have hfuel : a.data.length + 1 ≤ fuel + 1 := by
          simp only [List.length_append, List.length_cons] at hf
          omega
        simp only [quoteStr, List.cons_append, List.append_assoc, List.singleton_append,
          List.nil_append]
        simp only [parseElems]
        rw [parseStrBody_escaped a.data _ (fuel + 1) hfuel]
        simp
    | b :: rest2 =>
      have hsplit : (((a :: b :: rest2).map quoteStr).intersperse [',']).flatten ++ [']']
          = quoteStr a ++
            (',' :: ((((b :: rest2).map quoteStr).intersperse [',']).flatten ++ [']'])) := by
        simp [List.intersperse_cons_cons]
      rw [hsplit] at hf ⊢
      match fuel, hf with
      | fuel + 1, hf =>
        have hfuel : a.data.length + 1 ≤ fuel + 1 := by
          simp only [List.length_append, List.length_cons] at hf
          omega
        have hrest :
            ((((b :: rest2).map quoteStr).intersperse [',']).flatten ++ [']']).length ≤ fuel := by
          simp only [List.length_append, List.length_cons] at hf ⊢
          omega
        simp only [quoteStr, List.cons_append, List.append_assoc, List.singleton_append,
          List.nil_append]
        simp only [parseElems]
        rw [parseStrBody_escaped a.data _ (fuel + 1) hfuel]
        have hr := ih (by simp) fuel hrest
        simp only [List.map_cons] at hr
        simp [hr]

/-- `JSON.parse` inverts `JSON.stringify` on the persisted id arrays. -/
theorem parseIds_serializeIds (ids : List String) : parseIds (serializeIds ids) = some ids := by
  match ids with
  | [] => rfl
  | a :: rest =>
    have h := parseElems_serialize (a :: rest) (by simp)
      (((((a :: rest).map quoteStr).intersperse [',']).flatten ++ [']']).length + 1)
      (Nat.le_succ _)
    simp only [serializeIds]
    match hq : (((a :: rest).map quoteStr).intersperse [',']).flatten ++ [']'] with
    | [] => simp at hq
    | c :: tl =>
      have hc : c = '"' := by
        match rest with
        | [] => simp [List.intersperse_singleton, quoteStr] at hq; exact hq.1.symm
        | b :: r2 => simp [List.intersperse_cons_cons, quoteStr] at hq; exact hq.1.symm
      rw [hq] at h
      subst hc
      simp only [parseIds, List.length_cons] at h ⊢
      simpa using h

-- ── String comparison (JS `<` on strings, used by `Array.sort()`) ───────

/-- Lexicographic comparison of character lists by numeric character
value, i.e. the default JS string ordering (code points coincide with
UTF-16 code units on the data handled here). -/
def strLeCh : List Char → List Char → Bool
  | [], _ => true
  | _ :: _, [] => false
  | a :: as, b :: bs =>
    if a.toNat < b.toNat then true
    else if b.toNat < a.toNat then false
    else strLeCh as bs

/-- JS string `≤` (what the default comparator of `Array.sort()` sorts
by). -/
def strLe (a b : String) : Bool :=
  strLeCh a.data b.data

/-- `Array.prototype.sort()` on an array of strings: ascending reordering
under the default JS string comparison. -/
def sortIds (l : List String) : List String :=
  List.insertionSort (fun a b => strLe a b = true) l

-- ── Data model ──────────────────────────────────────────────────────────

/-- One extracted item: stable id, resolved url, and the per-field
extraction results (`null` is `none`). -/
structure ScrapedItem where
  id : String
  url : String
  fields : List (String × Option String)
  deriving DecidableEq, Repr

/-- JS `fields[k]` flattened through `?? / ?.`: an absent key and a null
value both behave as nullish. -/
def fieldVal (fs : List (String × Option String)) (k : String) : Option String :=
  match alistLookup fs k with
  | some (some v) => some v
  | _ => none

inductive Status where
  | initialized
  | new_items
  | unchanged
  | error
  deriving DecidableEq, Repr

/-- The per-monitor run result; optional fields are absent (`none`) when
the result object literal omits them. -/
structure MonitorResult where
  name : String
  status : Status
  count : Option Nat
  newItems : Option (List ScrapedItem)
  error : Option String
  deriving DecidableEq, Repr

/-- List-monitor configuration (the fields the diff engine reads;
selector/extraction options only shape the extraction input). -/
structure ListMonitor where
  name : String
  urls : List String
  maxPrice : Option ℚ
  sections : Option (List String)

structure FieldsMonitor where
  name : String
  url : String

/-- The persisted state: a JSON object mapping opaque keys to string
values, in key-insertion order. -/
abbrev StateMap := List (String × String)

/-- One call to `sendMessage`, tagged by call site so the kind of
notification is visible; the payload is the exact message text. -/
inductive Notification where
  | listInit (text : String)
  | listNew (text : String)
  | fieldsInit (text : String)
  | fieldsChange (text : String)
  deriving DecidableEq, Repr

/-- Result of one monitor check: the `MonitorResult`, the state map after
the check, and the notifications sent during it. -/
structure CheckOutcome where
  result : MonitorResult
  state : StateMap
  sent : List Notification
  deriving DecidableEq, Repr

/-- `monitorKey`: the sha256 hex digest of the monitor name.  The digest
itself is a black-box injective key-derivation; it is modelled by the
name, which the code relies on only through determinism and
collision-freedom. -/
def monitorKey (name : String) : String :=
  name

/-- `hashData`: sha256 hex of `JSON.stringify(data)` for a field
snapshot.  The digest is modelled by the serialized JSON text itself; the
code relies on the hash only as a deterministic function of the
snapshot. -/
def hashData (snap : List (String × Option String)) : String :=
  "\x7b" ++ String.intercalate (",") (snap.map (fun p =>
    (⟨quoteStr p.1⟩ : String) ++ ":" ++
      (match p.2 with
       | some v => (⟨quoteStr v⟩ : String)
       | none => "null"))) ++ "\x7d"

-- ── Price parsing ───────────────────────────────────────────────────────

def digitToNat (c : Char) : Nat :=
  c.toNat - 48

def natOfDigits (l : List Char) : Nat :=
  l.foldl (fun n c => n * 10 + digitToNat c) 0

/-- The regex search `/\$([\d,]+(?:\.\d\x7b2\x7d)?)/` followed by comma
removal and `parseFloat`, on the character list of the price string.
JS numbers are modelled as exact rationals.  A match whose digit run is
commas only parses to `NaN` in JS, which the price filter treats exactly
like a failed parse; it is modelled as `none`. -/
def parsePriceChars : List Char → Option ℚ
  | [] => none
  | '$' :: rest =>
    let run := rest.takeWhile (fun c => c.isDigit || c = ',')
    if run.isEmpty then parsePriceChars rest
    else
      let rest2 := rest.drop run.length
      let digits := run.filter (fun c => c.isDigit)
      let frac : Option (Char × Char) :=
        match rest2 with
        | '.' :: d1 :: d2 :: _ => if d1.isDigit ∧ d2.isDigit then some (d1, d2) else none
        | _ => none
      match frac with
      | some (d1, d2) =>
        some ((natOfDigits digits : ℚ) + ((digitToNat d1 * 10 + digitToNat d2 : ℕ) : ℚ) / 100)
      | none => if digits.isEmpty then none else some (natOfDigits digits : ℚ)
  | _ :: rest => parsePriceChars rest

/-- `parsePrice(str)`: `null` for nullish or empty input, else the regex
search above. -/
def parsePrice : Option String → Option ℚ
  | none => none
  | some s => if s = "" then none else parsePriceChars s.data

-- ── HTML escaping and item lines ────────────────────────────────────────

/-- `esc`: the chained `replace` calls escaping `&`, `<`, `>` (equivalent
to a single character-wise pass, since no later pass's pattern occurs in
an earlier pass's replacement). -/
def escHtmlChar (c : Char) : String :=
  if c = '&' then "&amp;"
  else if c = '<' then "&lt;"
  else if c = '>' then "&gt;"
  else ⟨[c]⟩

def esc (s : String) : String :=
  String.join (s.data.map escHtmlChar)

/-- Helper for `replace(/\s+/g, " ")`: `prevWs` records whether the
previous character was part of a whitespace run already replaced. -/
def collapseWsAux (prevWs : Bool) : List Char → List Char
  | [] => []
  | c :: rest =>
    if c.isWhitespace then
      if prevWs then collapseWsAux true rest
      else ' ' :: collapseWsAux true rest
    else c :: collapseWsAux false rest

/-- `replace(/\s+/g, " ")`: each maximal whitespace run becomes a single
space. -/
def collapseWs (s : String) : String :=
  ⟨collapseWsAux false s.data⟩

/-- `formatItemLine`: bullet with linked (or bold) escaped title plus any
present discount/price extras. -/
def formatItemLine (item : ScrapedItem) : String :=
  let title := esc ((fieldVal item.fields ("title")).getD item.id)
  let link :=
    if item.url ≠ "" then "<a href=\"" ++ item.url ++ "\">" ++ title ++ "</a>"
    else "<b>" ++ title ++ "</b>"
  let discount := (fieldVal item.fields ("discount")).map (fun d => (collapseWs d).trim)
  let price := (fieldVal item.fields ("price")).map String.trim
  let extras :=
    (match discount with
     | some d => if d ≠ "" then [d] else []
     | none => []) ++
    (match price with
     | some p => if p ≠ "" then [p] else []
     | none => [])
  "• " ++ link ++ (if extras.isEmpty then "" else "  —  " ++ String.intercalate ("  /  ") extras)

-- ── Section grouping ────────────────────────────────────────────────────

/-- `pat` occurs as a prefix of `l`. -/
def hasPre : List Char → List Char → Bool
  | _, [] => true
  | [], _ :: _ => false
  | c :: l, p :: ps => c = p && hasPre l ps

/-- `hay.includes(pat)`: `pat` occurs as a contiguous substring. -/
def hasSub : List Char → List Char → Bool
  | [], pat => pat.isEmpty
  | l@(_ :: rest), pat => hasPre l pat || hasSub rest pat

/-- `toLowerCase()`, modelled character-wise (ASCII-faithful). -/
def lowerStr (s : String) : String :=
  ⟨s.data.map Char.toLower⟩

/-- `detectSection`: first configured keyword occurring case-insensitively
in the title, else "Others". -/
def detectSection (title : String) (sections : List String) : String :=
  match sections.find? (fun sec => hasSub (lowerStr title).data (lowerStr sec).data) with
  | some sec => sec
  | none => "Others"

/-- The title an item is grouped by: `fields["title"] ?? id`. -/
def titleOf (item : ScrapedItem) : String :=
  (fieldVal item.fields ("title")).getD item.id

/-- `groups.get(k).push(it)` after `if (!groups.has(k)) groups.set(k, [])`:
append to the existing group in place, or append a fresh group. -/
def mapPush (g : List (String × List ScrapedItem)) (k : String) (it : ScrapedItem) :
    List (String × List ScrapedItem) :=
  match alistLookup g k with
  | some l => g.map (fun p => if p.1 = k then (k, l ++ [it]) else p)
  | none => g ++ [(k, [it])]

/-- The grouping loop of `formatNewItems`: a `Map` from section name to
the items detected in it, in first-detection order. -/
def groupsOf (sections : List String) (items : List ScrapedItem) :
    List (String × List ScrapedItem) :=
  items.foldl (fun g it => mapPush g (detectSection (titleOf it) sections) it) []

def hasGroup (g : List (String × List ScrapedItem)) (k : String) : Bool :=
  (alistLookup g k).isSome

/-- `formatNewItems`: header, then either a flat bullet list or the
grouped rendering (configured keyword order, "Others" last, empty groups
omitted). -/
def formatNewItems (monitorName : String) (items : List ScrapedItem)
    (sections : Option (List String)) : String :=
  let count := items.length
  let header := "⚡ <b>" ++ toString count ++ " new item" ++
    (if count > 1 then "s" else "") ++ "</b> — " ++ esc monitorName
  match sections with
  | none => String.intercalate ("\n") (header :: "" :: items.map formatItemLine)
  | some secs =>
    if secs.isEmpty then String.intercalate ("\n") (header :: "" :: items.map formatItemLine)
    else
      let groups := groupsOf secs items
      let ordered := secs.filter (fun s => hasGroup groups s) ++
        (if hasGroup groups ("Others") then ["Others"] else [])
      let lines := header :: (ordered.map (fun s =>
        "" :: ("<b>" ++ esc s ++ "</b>") ::
          ((alistLookup groups s).getD []).map formatItemLine)).flatten
      String.intercalate ("\n") lines

-- ── Notification texts of the monitor checks ────────────────────────────

def listInitMessage (m : ListMonitor) (numIds : Nat) : String :=
  "👀 <b>Now monitoring:</b> " ++ esc m.name ++ "\nTracking <b>" ++ toString numIds ++
    "</b> items across " ++ toString m.urls.length ++ " page(s)" ++
    (match m.maxPrice with
     | some mp => " (price filter: under $" ++ toString mp ++ ")"
     | none => "") ++ "."

def fieldLinesOf (snap : List (String × Option String)) : String :=
  String.intercalate ("\n") (snap.map (fun p =>
    "  • " ++ esc p.1 ++ ": " ++ esc (p.2.getD ("(not found)"))))

def fieldsInitMessage (m : FieldsMonitor) (snap : List (String × Option String)) : String :=
  "👀 <b>Now monitoring:</b> " ++ esc m.name ++ "\n" ++ fieldLinesOf snap ++
    "\n\n<a href=\"" ++ m.url ++ "\">View page</a>"

def fieldsChangeMessage (m : FieldsMonitor) (snap : List (String × Option String)) : String :=
  "⚡ <b>Change detected:</b> " ++ esc m.name ++ "\n" ++ fieldLinesOf snap ++
    "\n\n<a href=\"" ++ m.url ++ "\">View page</a>"

-- ── Diff engine: list monitor ───────────────────────────────────────────

/-- `new Map(perPage.flat().map(item => [item.id, item]))`. -/
def itemByIdOf (perPage : List (List ScrapedItem)) : List (String × ScrapedItem) :=
  mapOfItems (fun it => it.id) perPage.flatten

/-- The candidate predicate of the price filter. -/
def passesFilter (maxPrice : Option ℚ) (it : ScrapedItem) : Bool :=
  match maxPrice with
  | none => true
  | some mp =>
    match parsePrice (fieldVal it.fields ("price")) with
    | none => false
    | some p => p ≤ mp

/-- `[...itemById.values()].filter(...)`. -/
def candidatesOf (maxPrice : Option ℚ) (itemById : List (String × ScrapedItem)) :
    List ScrapedItem :=
  (itemById.map (fun p => p.2)).filter (passesFilter maxPrice)

/-- `[...itemById.keys()].sort()`. -/
def allIdsOf (itemById : List (String × ScrapedItem)) : List String :=
  sortIds (itemById.map (fun p => p.1))

/-- The new-item computation of `checkListMonitor`:
`candidateIds.filter(id => !prevSet.has(id)).map(id => candidateById.get(id)!)`.
The non-null assertion always succeeds (the ids come from `candidateById`'s
keys), so the `map` is modelled by the behaviourally equal `filterMap`. -/
def newItemsOf (maxPrice : Option ℚ) (itemById : List (String × ScrapedItem))
    (prevIds : List String) : List ScrapedItem :=
  let candidateById := mapOfItems (fun it => it.id) (candidatesOf maxPrice itemById)
  let candidateIds := sortIds (candidateById.map (fun p => p.1))
  (candidateIds.filter (fun i => !(prevIds.contains i))).filterMap
    (fun i => alistLookup candidateById i)

/-- `checkListMonitor`, as a pure function of the monitor config, the
per-page extraction results for `monitor.urls`, and the in-memory state.
`JSON.parse` of an unparsable prior value is a thrown exception at the
monitor boundary, surfacing as an `error` result with the state not yet
touched (the `Ref.update` only happens after the parse). -/
def checkListMonitor (m : ListMonitor) (perPage : List (List ScrapedItem))
    (state : StateMap) : CheckOutcome :=
  let itemById := itemByIdOf perPage
  if itemById.isEmpty then
    ⟨⟨m.name, Status.unchanged, none, none, none⟩, state, []⟩
  else
    let allIds := allIdsOf itemById
    let key := monitorKey m.name
    match alistLookup state key with
    | none =>
      ⟨⟨m.name, Status.initialized, some allIds.length, none, none⟩,
       alistSet state key (serializeIds allIds),
       [Notification.listInit (listInitMessage m allIds.length)]⟩
    | some prevRaw =>
      match parseIds prevRaw with
      | none =>
        ⟨⟨m.name, Status.error, none, none, some ("state parse failure")⟩, state, []⟩
      | some prevIds =>
        let newItems := newItemsOf m.maxPrice itemById prevIds
        let st2 := alistSet state key (serializeIds allIds)
        if newItems.isEmpty then
          ⟨⟨m.name, Status.unchanged, none, none, none⟩, st2, []⟩
        else
          ⟨⟨m.name, Status.new_items, none, some newItems, none⟩, st2,
           [Notification.listNew (formatNewItems m.name newItems m.sections)]⟩

-- ── Diff engine: fields monitor ─────────────────────────────────────────

/-- `checkFieldsMonitor`, as a pure function of the monitor config, the
extracted field snapshot for `monitor.url`, and the in-memory state. -/
def checkFieldsMonitor (m : FieldsMonitor) (current : List (String × Option String))
    (state : StateMap) : CheckOutcome :=
  let currentHash := hashData current
  let key := monitorKey m.name
  match alistLookup state key with
  | none =>
    ⟨⟨m.name, Status.initialized, none, none, none⟩,
     alistSet state key currentHash,
     [Notification.fieldsInit (fieldsInitMessage m current)]⟩
  | some prevHash =>
    if prevHash ≠ currentHash then
      ⟨⟨m.name, Status.new_items, none, none, none⟩,
       alistSet state key currentHash,
       [Notification.fieldsChange (fieldsChangeMessage m current)]⟩
    else
      ⟨⟨m.name, Status.unchanged, none, none, none⟩, state, []⟩

-- ── Telegram message chunking ───────────────────────────────────────────

def TELEGRAM_MAX_MESSAGE_LEN : Nat := 4096

def TELEGRAM_SAFE_CHUNK_LEN : Nat := 3800

/-- `text.split("\n")` on the character list: the (non-empty) list of
newline-separated lines. -/
def splitNl : List Char → List (List Char)
  | [] => [[]]
  | c :: rest =>
    if c = '\n' then [] :: splitNl rest
    else
      match splitNl rest with
      | [] => [[c]]
      | l :: ls => (c :: l) :: ls

/-- Joining lines back with `"\n"` (the JS `lines.join("\n")`). -/
def joinNl : List (List Char) → List Char
  | [] => []
  | [l] => l
  | l :: ls => l ++ '\n' :: joinNl ls

/-- Consecutive slices of length `step + 1`. -/
def chunksOf (step : Nat) : List Char → List (List Char)
  | [] => []
  | c :: rest => ((c :: rest).take (step + 1)) :: chunksOf step ((c :: rest).drop (step + 1))
termination_by l => l.length
decreasing_by
  simp only [List.length_drop, List.length_cons]
  omega

/-- The hard-slicing fallback loop `for (i = 0; i < line.length; i += maxLen)
chunks.push(line.slice(i, i + maxLen))`.  Defined for `maxLen ≥ 1`; the
source loops forever at `maxLen = 0` and is never called that way. -/
def hardSlice (maxLen : Nat) (l : List Char) : List (List Char) :=
  chunksOf (maxLen - 1) l

/-- One iteration of the line loop of `chunkTelegramMessage` over the
accumulator (chunks so far, current part). -/
def chunkStep (maxLen : Nat) (acc : List (List Char) × List Char) (line : List Char) :
    List (List Char) × List Char :=
  let chunks := acc.1
  let current := acc.2
  let next := if current.isEmpty then line else current ++ '\n' :: line
  if next.length ≤ maxLen then (chunks, next)
  else
    let chunks2 := if current.isEmpty then chunks else chunks ++ [current]
    if line.length ≤ maxLen then (chunks2, line)
    else (chunks2 ++ hardSlice maxLen line, [])

/-- The trailing `if (current) chunks.push(current)` flush. -/
def chunkFinish (acc : List (List Char) × List Char) : List (List Char) :=
  if acc.2.isEmpty then acc.1 else acc.1 ++ [acc.2]

/-- `chunkTelegramMessage` on character lists. -/
def chunkTelegramChars (text : List Char) (maxLen : Nat) : List (List Char) :=
  if text.length ≤ maxLen then [text]
  else chunkFinish ((splitNl text).foldl (chunkStep maxLen) ([], []))

/-- `chunkTelegramMessage(text, maxLen)`; JS string lengths are UTF-16
code-unit counts, modelled as scalar-value counts (identical on the BMP
text the system sends). -/
def chunkTelegramMessage (text : String) (maxLen : Nat) : List String :=
  (chunkTelegramChars text.data maxLen).map (fun l => ⟨l⟩)

-- ── Extractor (`extractItemList`) ───────────────────────────────────────

/-- Extraction options of a list monitor. -/
structure ExtractOptions where
  baseUrl : Option String
  idAttribute : Option String
  urlTemplate : Option String
  fieldTransforms : List (String × String)

/-- One element matched by `itemSelector`, abstracted by the three DOM
queries the extractor performs on it: `$(el).attr(a)`,
`$(el).find(sel).first().attr(a)` and `$(el).find(sel).first().text()`
(the latter is `""` when nothing matches). -/
structure Element where
  attr : String → Option String
  findAttr : String → String → Option String
  findText : String → String

def isWordDash (c : Char) : Bool :=
  c.isAlphanum || c = '_' || c = '-'

/-- The regex split `/^(.+)@([\w-]+)$/` of a field selector: the part
before the last `@` and the attribute name after it, provided the
attribute part is a non-empty run of word/hyphen characters and the
selector part is non-empty. -/
def splitAttrSelector (sel : String) : Option (String × String) :=
  let rev := sel.data.reverse
  let attrRev := rev.takeWhile (fun c => c != '@')
  if attrRev.length = rev.length then none
  else
    let attr := attrRev.reverse
    let pre := sel.data.take (sel.data.length - attrRev.length - 1)
    if !attr.isEmpty && attr.all isWordDash && !pre.isEmpty then
      some (⟨pre⟩, ⟨attr⟩)
    else none

/-- Raw extraction of one field from one element.  `resolveUrl raw base`
is the WHATWG `new URL(raw, base).toString()` resolution provided by the
runtime, passed as an oracle; `none` models the constructor throwing, in
which case the raw value is kept unchanged. -/
def extractRawField (el : Element) (opts : ExtractOptions)
    (resolveUrl : String → String → Option String) (selRaw : String) : Option String :=
  match splitAttrSelector selRaw with
  | some (sel, attrName) =>
    match el.findAttr sel attrName with
    | some r =>
      match opts.baseUrl with
      | some b =>
        if r ≠ "" ∧ b ≠ "" then
          match resolveUrl r b with
          | some u => some u
          | none => some r
        else some r
      | none => some r
    | none => none
  | none =>
    let t := (el.findText selRaw).trim
    if t = "" then none else some t

/-- One field transform: only `"stripPrefix:<p>"` is supported, applied
only to non-empty present values. -/
def applyTransform (fs : List (String × Option String)) (field : String) (tr : String) :
    List (String × Option String) :=
  match fieldVal fs field with
  | none => fs
  | some v =>
    if v = "" then fs
    else if tr.startsWith ("stripPrefix:") then
      let pre := tr.drop 12
      alistSet fs field (some (if v.startsWith pre then v.drop pre.length else v))
    else fs

/-- The extracted field map of one element, after transforms. -/
def extractedFields (el : Element) (opts : ExtractOptions)
    (resolveUrl : String → String → Option String)
    (fieldSelectors : List (String × String)) : List (String × Option String) :=
  let fs := fieldSelectors.map (fun p => (p.1, extractRawField el opts resolveUrl p.2))
  opts.fieldTransforms.foldl (fun acc p => applyTransform acc p.1 p.2) fs

/-- The regex search `/\/products\/([^\/?]+)/`: first position where
`/products/` is followed by a non-empty run of characters other than `/`
and `?`; that run is the captured code. -/
def productsIdCh : List Char → Option (List Char)
  | [] => none
  | l@(_ :: rest) =>
    if hasPre l (("/products/").data) then
      let run := (l.drop 10).takeWhile (fun c => c != '/' && c != '?')
      if run.isEmpty then productsIdCh rest else some run
    else productsIdCh rest

def productsId (s : String) : Option String :=
  (productsIdCh s.data).map (fun l => ⟨l⟩)

/-- Identity resolution: the configured `idAttribute` on the element
itself, else the `/products/<code>/` segment of the extracted `url`
field (a nullish or empty url yields no id either way). -/
def resolveItemId (el : Element) (opts : ExtractOptions)
    (fs : List (String × Option String)) : Option String :=
  match opts.idAttribute with
  | some ia => el.attr ia
  | none =>
    match fieldVal fs ("url") with
    | some u => productsId u
    | none => none

/-- `str.replace(pat, rep)` with a string pattern: first occurrence
only. -/
def replaceOnceCh : List Char → List Char → List Char → List Char
  | [], _, _ => []
  | c :: rest, pat, rep =>
    if hasPre (c :: rest) pat then rep ++ (c :: rest).drop pat.length
    else c :: replaceOnceCh rest pat rep

def replaceOnce (s pat rep : String) : String :=
  ⟨replaceOnceCh s.data pat.data rep.data⟩

/-- The per-element body of `extractItemList`: extract fields, apply
transforms, resolve id and url, and emit the item only when a (truthy)
id was resolved. -/
def processElement (el : Element) (opts : ExtractOptions)
    (resolveUrl : String → String → Option String)
    (fieldSelectors : List (String × String)) : Option ScrapedItem :=
  let fs := extractedFields el opts resolveUrl fieldSelectors
  let idOpt := resolveItemId el opts fs
  let url :=
    match opts.urlTemplate, idOpt with
    | some t, some i =>
      if t ≠ "" ∧ i ≠ "" then replaceOnce t ("\x7bid\x7d") i
      else (fieldVal fs ("url")).getD ""
    | _, _ => (fieldVal fs ("url")).getD ""
  match idOpt with
  | some i => if i ≠ "" then some ⟨i, url, fs⟩ else none
  | none => none

/-- `extractItemList`, over the elements matched by `itemSelector`. -/
def extractItemList (elems : List Element) (fieldSelectors : List (String × String))
    (opts : ExtractOptions) (resolveUrl : String → String → Option String) :
    List ScrapedItem :=
  elems.filterMap (fun el => processElement el opts resolveUrl fieldSelectors)

-- ── Association-list lemmas ─────────────────────────────────────────────

theorem find?_markAll {α : Type} {s : List (String × α)} {k : String} {v : α}
    (h : s.any (fun p => p.1 = k) = true) :
    (s.map (fun p => if p.1 = k then (k, v) else p)).find? (fun p => p.1 = k)
      = some (k, v) := by
  induction s with
  | nil => simp at h
  | cons p rest ih =>
    by_cases hp : p.1 = k
    · simp [hp, List.find?]
    · have h2 : rest.any (fun p => p.1 = k) = true := by
        simpa [hp] using h
      simpa [hp, List.find?] using ih h2

theorem alistLookup_alistSet_self {α : Type} (s : List (String × α)) (k : String) (v : α) :
    alistLookup (alistSet s k v) k = some v := by
  unfold alistLookup alistSet
  by_cases h : s.any (fun p => p.1 = k) = true
  · rw [if_pos h, find?_markAll h]
    rfl
  · rw [if_neg h]
    have hnone : s.find? (fun p => p.1 = k) = none := by
      rw [List.find?_eq_none]
      intro p hp
      intro hk
      exact h (List.any_eq_true.mpr ⟨p, hp, hk⟩)
    rw [List.find?_append, hnone]
    simp

theorem alistSet_idem {α : Type} (s : List (String × α)) (k : String) (v : α) :
    alistSet (alistSet s k v) k v = alistSet s k v := by
  unfold alistSet
  by_cases h : s.any (fun p => p.1 = k) = true
  · rw [if_pos h]
    have h2 : (s.map (fun p => if p.1 = k then (k, v) else p)).any (fun p => p.1 = k) = true := by
      rcases List.any_eq_true.mp h with ⟨p, hp, hk⟩
      have hk2 := of_decide_eq_true hk
      refine List.any_eq_true.mpr ⟨(k, v), List.mem_map.mpr ⟨p, hp, by simp [hk2]⟩, by simp⟩
    rw [if_pos h2, List.map_map]
    refine List.map_congr_left ?_
    intro p _
    by_cases hp : p.1 = k <;> simp [hp]
  · rw [if_neg h]
    have h2 : (s ++ [(k, v)]).any (fun p => p.1 = k) = true := by
      refine List.any_eq_true.mpr ⟨(k, v), by simp, by simp⟩
    rw [if_pos h2, List.map_append]
    have h3 : s.map (fun p => if p.1 = k then (k, v) else p) = s := by
      conv_rhs => rw [← List.map_id s]
      refine List.map_congr_left ?_
      intro p hp
      have hk : ¬ (p.1 = k) := fun hk => h (List.any_eq_true.mpr ⟨p, hp, by simp [hk]⟩)
      simp [hk]
    rw [h3]
    simp

theorem alistLookup_mem {α : Type} {s : List (String × α)} {k : String} {v : α}
    (h : alistLookup s k = some v) : (k, v) ∈ s := by
  unfold alistLookup at h
  match hf : s.find? (fun p => p.1 = k) with
  | none => rw [hf] at h; simp at h
  | some p =>
    rw [hf] at h
    have hm := List.mem_of_find?_eq_some hf
    have hk := List.find?_some hf
    simp only [decide_eq_true_eq] at hk
    simp at h
    have hp : p = (k, v) := by
      cases p
      simp_all
    rwa [hp] at hm

-- ── `Map`-construction lemmas ───────────────────────────────────────────

theorem mem_mapInsert {α : Type} {m : List (String × α)} {k : String} {v : α} {p : String × α}
    (h : p ∈ mapInsert m k v) : p ∈ m ∨ p = (k, v) := by
  unfold mapInsert alistSet at h
  by_cases hany : m.any (fun q => q.1 = k) = true
  · rw [if_pos hany] at h
    rcases List.mem_map.mp h with ⟨q, hq, hfq⟩
    by_cases hqk : q.1 = k
    · right; simp [hqk] at hfq; exact hfq.symm
    · left; simp [hqk] at hfq; rwa [← hfq]
  · rw [if_neg hany] at h
    rcases List.mem_append.mp h with h | h
    · exact Or.inl h
    · right; simpa using h

theorem keys_mapInsert {α : Type} (m : List (String × α)) (k : String) (v : α) :
    (mapInsert m k v).map Prod.fst
      = if m.any (fun q => q.1 = k) = true then m.map Prod.fst else m.map Prod.fst ++ [k] := by
  unfold mapInsert alistSet
  by_cases hany : m.any (fun q => q.1 = k) = true
  · rw [if_pos hany, if_pos hany, List.map_map]
    refine List.map_congr_left ?_
    intro p _
    by_cases hp : p.1 = k <;> simp [hp]
  · rw [if_neg hany, if_neg hany]
    simp

theorem keys_foldl_mapInsert_mem {α : Type} (key : α → String) :
    ∀ (xs : List α) (acc : List (String × α)) (a : String),
      (a ∈ (xs.foldl (fun m x => mapInsert m (key x) x) acc).map Prod.fst
        ↔ a ∈ acc.map Prod.fst ∨ a ∈ xs.map key) := by
  intro xs
  induction xs with
  | nil => intro acc a; simp
  | cons x rest ih =>
    intro acc a
    simp only [List.foldl_cons, List.map_cons, List.mem_cons]
    rw [ih]
    rw [keys_mapInsert]
    by_cases hany : acc.any (fun q => q.1 = key x) = true
    · rw [if_pos hany]
      constructor
      · rintro (h | h)
        · exact Or.inl h
        · exact Or.inr (Or.inr h)
      · rintro (h | h | h)
        · exact Or.inl h
        · rcases List.any_eq_true.mp hany with ⟨q, hq, hk⟩
          simp only [decide_eq_true_eq] at hk
          subst h
          exact Or.inl (by rw [← hk]; exact List.mem_map.mpr ⟨q, hq, rfl⟩)
        · exact Or.inr h
    · rw [if_neg hany]
      simp only [List.mem_append, List.mem_singleton]
      tauto

theorem keys_mapOfItems_mem {α : Type} (key : α → String) (xs : List α) (a : String) :
    a ∈ (mapOfItems key xs).map Prod.fst ↔ a ∈ xs.map key := by
  unfold mapOfItems
  rw [keys_foldl_mapInsert_mem]
  simp

theorem keys_foldl_mapInsert_nodup {α : Type} (key : α → String) :
    ∀ (xs : List α) (acc : List (String × α)),
      (acc.map Prod.fst).Nodup →
      ((xs.foldl (fun m x => mapInsert m (key x) x) acc).map Prod.fst).Nodup := by
  intro xs
  induction xs with
  | nil => intro acc h; simpa using h
  | cons x rest ih =>
    intro acc h
    simp only [List.foldl_cons]
    refine ih _ ?_
    rw [keys_mapInsert]
    by_cases hany : acc.any (fun q => q.1 = key x) = true
    · rwa [if_pos hany]
    · rw [if_neg hany]
      refine List.Nodup.append h (List.nodup_singleton _) ?_
      intro a ha hb
      simp only [List.mem_singleton] at hb
      subst hb
      rcases List.mem_map.mp ha with ⟨q, hq, hk⟩
      exact hany (List.any_eq_true.mpr ⟨q, hq, by simp [hk]⟩)

theorem keys_mapOfItems_nodup {α : Type} (key : α → String) (xs : List α) :
    ((mapOfItems key xs).map Prod.fst).Nodup := by
  unfold mapOfItems
  exact keys_foldl_mapInsert_nodup key xs [] (by simp)

theorem mem_foldl_mapInsert {α : Type} (key : α → String) :
    ∀ (xs : List α) (acc : List (String × α)) (p : String × α),
      p ∈ xs.foldl (fun m x => mapInsert m (key x) x) acc →
      p ∈ acc ∨ (key p.2 = p.1 ∧ p.2 ∈ xs) := by
  intro xs
  induction xs with
  | nil => intro acc p h; exact Or.inl h
  | cons x rest ih =>
    intro acc p h
    simp only [List.foldl_cons] at h
    rcases ih _ _ h with h2 | h2
    · rcases mem_mapInsert h2 with h3 | h3
      · exact Or.inl h3
      · subst h3; exact Or.inr ⟨rfl, by simp⟩
    · exact Or.inr ⟨h2.1, List.mem_cons_of_mem _ h2.2⟩

theorem mem_mapOfItems {α : Type} {key : α → String} {xs : List α} {p : String × α}
    (h : p ∈ mapOfItems key xs) : key p.2 = p.1 ∧ p.2 ∈ xs := by
  rcases mem_foldl_mapInsert key xs [] p h with h2 | h2
  · simp at h2
  · exact h2

theorem foldl_mapInsert_fresh {α : Type} (key : α → String) :
    ∀ (xs : List α) (acc : List (String × α)),
      (xs.map key).Nodup →
      (∀ x ∈ xs, ¬ (key x ∈ acc.map Prod.fst)) →
      xs.foldl (fun m x => mapInsert m (key x) x) acc
        = acc ++ xs.map (fun x => (key x, x)) := by
  intro xs
  induction xs with
  | nil => intro acc _ _; simp
  | cons x rest ih =>
    intro acc hnd hfresh
    simp only [List.map_cons, List.nodup_cons] at hnd
    simp only [List.foldl_cons]
    have hx : ¬ (acc.any (fun q => q.1 = key x) = true) := by
      intro hany
      rcases List.any_eq_true.mp hany with ⟨q, hq, hk⟩
      simp only [decide_eq_true_eq] at hk
      exact hfresh x (by simp) (by rw [← hk]; exact List.mem_map.mpr ⟨q, hq, rfl⟩)
    have hins : mapInsert acc (key x) x = acc ++ [(key x, x)] := by
      unfold mapInsert alistSet
      rw [if_neg hx]
    rw [hins]
    have hfresh2 : ∀ y ∈ rest, ¬ (key y ∈ (acc ++ [(key x, x)]).map Prod.fst) := by
      intro y hy h
      simp only [List.map_append, List.mem_append, List.map_cons, List.map_nil,
        List.mem_singleton] at h
      rcases h with h | h
      · exact hfresh y (List.mem_cons_of_mem _ hy) h
      · exact hnd.1 (by rw [← h]; exact List.mem_map.mpr ⟨y, hy, rfl⟩)
    rw [ih (acc ++ [(key x, x)]) hnd.2 hfresh2]
    simp

theorem mapOfItems_of_nodup {α : Type} (key : α → String) (xs : List α)
    (h : (xs.map key).Nodup) :
    mapOfItems key xs = xs.map (fun x => (key x, x)) := by
  unfold mapOfItems
  rw [foldl_mapInsert_fresh key xs [] h (by simp)]
  simp

theorem alistLookup_map_pair {α : Type} {key : α → String} {xs : List α}
    (h : (xs.map key).Nodup) {x : α} (hx : x ∈ xs) :
    alistLookup (xs.map (fun y => (key y, y))) (key x) = some x := by
  induction xs with
  | nil => simp at hx
  | cons y rest ih =>
    simp only [List.map_cons, List.nodup_cons] at h
    rcases List.mem_cons.mp hx with hxy | hxr
    · subst hxy
      simp [alistLookup, List.find?]
    · have hne : ¬ (key y = key x) := by
        intro he
        exact h.1 (he ▸ List.mem_map.mpr ⟨x, hxr, rfl⟩)
      have := ih h.2 hxr
      unfold alistLookup at this ⊢
      simpa [List.find?, hne] using this

-- ── String-order and sort lemmas ────────────────────────────────────────

theorem strLeCh_cons {x y : Char} {as bs : List Char} :
    strLeCh (x :: as) (y :: bs) = true
      ↔ (x.toNat < y.toNat ∨ (x.toNat = y.toNat ∧ strLeCh as bs = true)) := by
  by_cases h1 : x.toNat < y.toNat
  · simp [strLeCh, h1]
  · by_cases h2 : y.toNat < x.toNat
    · simp [strLeCh, h1, h2]
      omega
    · have h3 : x.toNat = y.toNat := by omega
      simp [strLeCh, h1, h2, h3]

theorem strLeCh_total : ∀ (a b : List Char), strLeCh a b = true ∨ strLeCh b a = true := by
  intro a
  induction a with
  | nil => intro b; left; rfl
  | cons x as ih =>
    intro b
    match b with
    | [] => right; rfl
    | y :: bs =>
      rcases Nat.lt_trichotomy x.toNat y.toNat with h | h | h
      · left; rw [strLeCh_cons]; exact Or.inl h
      · rcases ih bs with hh | hh
        · left; rw [strLeCh_cons]; exact Or.inr ⟨h, hh⟩
        · right; rw [strLeCh_cons]; exact Or.inr ⟨h.symm, hh⟩
      · right; rw [strLeCh_cons]; exact Or.inl h

theorem strLeCh_trans : ∀ (a b c : List Char),
    strLeCh a b = true → strLeCh b c = true → strLeCh a c = true := by
  intro a
  induction a with
  | nil => intro b c _ _; rfl
  | cons x as ih =>
    intro b c h1 h2
    match b, c with
    | [], _ => simp [strLeCh] at h1
    | _ :: _, [] => simp [strLeCh] at h2
    | y :: bs, z :: cs =>
      rw [strLeCh_cons] at h1 h2 ⊢
      rcases h1 with h1 | ⟨h1e, h1r⟩
      · rcases h2 with h2 | ⟨h2e, _⟩
        · exact Or.inl (by omega)
        · exact Or.inl (by omega)
      · rcases h2 with h2 | ⟨h2e, h2r⟩
        · exact Or.inl (by omega)
        · exact Or.inr ⟨by omega, ih bs cs h1r h2r⟩

instance : IsTotal String (fun a b => strLe a b = true) :=
  ⟨fun a b => strLeCh_total a.data b.data⟩

instance : IsTrans String (fun a b => strLe a b = true) :=
  ⟨fun a b c h1 h2 => strLeCh_trans a.data b.data c.data h1 h2⟩

theorem mem_sortIds {a : String} {l : List String} : a ∈ sortIds l ↔ a ∈ l :=
  (List.perm_insertionSort _ l).mem_iff

theorem sortIds_sorted (l : List String) :
    (sortIds l).Pairwise (fun a b => strLe a b = true) :=
  List.sorted_insertionSort _ l

theorem sortIds_nodup {l : List String} (h : l.Nodup) : (sortIds l).Nodup :=
  ((List.perm_insertionSort _ l).nodup_iff).mpr h

-- ── Diff-engine lemmas ──────────────────────────────────────────────────

theorem candidate_id_mem_keys {mp : Option ℚ} {xs : List ScrapedItem} {it : ScrapedItem}
    (h : it ∈ candidatesOf mp (mapOfItems (fun i => i.id) xs)) :
    it.id ∈ (mapOfItems (fun i => i.id) xs).map Prod.fst := by
  unfold candidatesOf at h
  rcases List.mem_map.mp (List.mem_filter.mp h).1 with ⟨p, hp, hpe⟩
  have h3 := mem_mapOfItems hp
  refine List.mem_map.mpr ⟨p, hp, ?_⟩
  rw [← h3.1, hpe]

theorem values_ids_eq_keys (xs : List ScrapedItem) :
    ((mapOfItems (fun i => i.id) xs).map (fun p => p.2)).map (fun it => it.id)
      = (mapOfItems (fun i => i.id) xs).map Prod.fst := by
  rw [List.map_map]
  refine List.map_congr_left ?_
  intro p hp
  exact (mem_mapOfItems hp).1

theorem candidates_ids_nodup (mp : Option ℚ) (xs : List ScrapedItem) :
    ((candidatesOf mp (mapOfItems (fun i => i.id) xs)).map (fun it => it.id)).Nodup := by
  have hsub : ((candidatesOf mp (mapOfItems (fun i => i.id) xs)).map (fun it => it.id)).Sublist
      (((mapOfItems (fun i => i.id) xs).map (fun p => p.2)).map (fun it => it.id)) :=
    (List.filter_sublist _).map _
  refine List.Nodup.sublist hsub ?_
  rw [values_ids_eq_keys]
  exact keys_mapOfItems_nodup _ xs

theorem candById_eq (mp : Option ℚ) (xs : List ScrapedItem) :
    mapOfItems (fun it => it.id) (candidatesOf mp (mapOfItems (fun i => i.id) xs))
      = (candidatesOf mp (mapOfItems (fun i => i.id) xs)).map (fun it => (it.id, it)) :=
  mapOfItems_of_nodup _ _ (candidates_ids_nodup mp xs)

theorem filterMap_lookup_map_id (M : List (String × ScrapedItem)) :
    ∀ ids : List String,
      (∀ i ∈ ids, ∃ v, alistLookup M i = some v ∧ v.id = i) →
      ((ids.filterMap (fun i => alistLookup M i)).map (fun it => it.id)) = ids := by
  intro ids
  induction ids with
  | nil => intro _; rfl
  | cons i rest ih =>
    intro h
    rcases h i (by simp) with ⟨v, hv, hvi⟩
    simp only [List.filterMap_cons, hv, List.map_cons]
    rw [hvi, ih (fun j hj => h j (List.mem_cons_of_mem _ hj))]

theorem newItemsOf_ids (mp : Option ℚ) (xs : List ScrapedItem) (prevIds : List String) :
    (newItemsOf mp (mapOfItems (fun i => i.id) xs) prevIds).map (fun it => it.id)
      = (sortIds ((candidatesOf mp (mapOfItems (fun i => i.id) xs)).map (fun it => it.id))).filter
          (fun i => !(prevIds.contains i)) := by
  simp only [newItemsOf]
  rw [candById_eq]
  have hkeys : ((candidatesOf mp (mapOfItems (fun i => i.id) xs)).map
      (fun it => (it.id, it))).map Prod.fst
      = (candidatesOf mp (mapOfItems (fun i => i.id) xs)).map (fun it => it.id) := by
    rw [List.map_map]
    rfl
  rw [hkeys]
  refine filterMap_lookup_map_id _ _ ?_
  intro i hi
  have h1 : i ∈ sortIds ((candidatesOf mp (mapOfItems (fun j => j.id) xs)).map
      (fun it => it.id)) := (List.mem_filter.mp hi).1
  rcases List.mem_map.mp (mem_sortIds.mp h1) with ⟨x, hx, hxi⟩
  refine ⟨x, ?_, hxi⟩
  rw [← hxi]
  exact alistLookup_map_pair (candidates_ids_nodup mp xs) hx

theorem mem_newItemsOf (mp : Option ℚ) (xs : List ScrapedItem) (prevIds : List String)
    (it : ScrapedItem) :
    it ∈ newItemsOf mp (mapOfItems (fun i => i.id) xs) prevIds
      ↔ (it ∈ candidatesOf mp (mapOfItems (fun i => i.id) xs) ∧ ¬ (it.id ∈ prevIds)) := by
  constructor
  · intro h
    simp only [newItemsOf] at h
    rw [candById_eq] at h
    rcases List.mem_filterMap.mp h with ⟨i, hi, hlk⟩
    have hmem := alistLookup_mem hlk
    rcases List.mem_map.mp hmem with ⟨x, hx, hxe⟩
    have hxi : x.id = i ∧ x = it := by
      constructor
      · exact congrArg Prod.fst hxe
      · exact congrArg Prod.snd hxe
    refine ⟨hxi.2 ▸ hx, ?_⟩
    have hnc := (List.mem_filter.mp hi).2
    intro hmem2
    rw [← hxi.2, hxi.1] at hmem2
    simp only [List.contains] at hnc
    rw [List.elem_eq_true_of_mem hmem2] at hnc
    simp at hnc
  · rintro ⟨hc, hnp⟩
    simp only [newItemsOf]
    rw [candById_eq]
    refine List.mem_filterMap.mpr ⟨it.id, ?_, ?_⟩
    · refine List.mem_filter.mpr ⟨?_, ?_⟩
      · have hkeys : ((candidatesOf mp (mapOfItems (fun i => i.id) xs)).map
            (fun y => (y.id, y))).map Prod.fst
            = (candidatesOf mp (mapOfItems (fun i => i.id) xs)).map (fun y => y.id) := by
          rw [List.map_map]
          rfl
        rw [hkeys]
        exact mem_sortIds.mpr (List.mem_map.mpr ⟨it, hc, rfl⟩)
      · simpa using hnp
    · exact alistLookup_map_pair (candidates_ids_nodup mp xs) hc

theorem newItemsOf_allIds (mp : Option ℚ) (xs : List ScrapedItem) :
    newItemsOf mp (mapOfItems (fun i => i.id) xs)
      (allIdsOf (mapOfItems (fun i => i.id) xs)) = [] := by
  simp only [newItemsOf]
  have hfil : (sortIds ((mapOfItems (fun it => it.id)
      (candidatesOf mp (mapOfItems (fun i => i.id) xs))).map Prod.fst)).filter
        (fun i => !((allIdsOf (mapOfItems (fun i => i.id) xs)).contains i)) = [] := by
    rw [List.filter_eq_nil]
    intro i hi
    have h1 := mem_sortIds.mp hi
    have h2 : i ∈ (candidatesOf mp (mapOfItems (fun j => j.id) xs)).map (fun it => it.id) :=
      (keys_mapOfItems_mem _ _ _).mp h1
    rcases List.mem_map.mp h2 with ⟨x, hx, hxi⟩
    have h3 : i ∈ (mapOfItems (fun j => j.id) xs).map Prod.fst := by
      rw [← hxi]
      exact candidate_id_mem_keys hx
    have h4 : i ∈ allIdsOf (mapOfItems (fun j => j.id) xs) := mem_sortIds.mpr h3
    simpa using h4
  rw [hfil]
  rfl

theorem itemByIdOf_eq (pp : List (List ScrapedItem)) :
    itemByIdOf pp = mapOfItems (fun i => i.id) pp.flatten := rfl

-- ── Branch equations of `checkListMonitor` ──────────────────────────────

theorem checkListMonitor_empty (m : ListMonitor) (pp : List (List ScrapedItem))
    (st : StateMap) (h : itemByIdOf pp = []) :
    checkListMonitor m pp st = ⟨⟨m.name, Status.unchanged, none, none, none⟩, st, []⟩ := by
  simp [checkListMonitor, h]

theorem checkListMonitor_notEmpty (pp : List (List ScrapedItem))
    (hne : itemByIdOf pp ≠ []) : (itemByIdOf pp).isEmpty = false := by
  cases hE : (itemByIdOf pp).isEmpty
  · rfl
  · exact absurd (List.isEmpty_iff.mp hE) hne

theorem checkListMonitor_init (m : ListMonitor) (pp : List (List ScrapedItem))
    (st : StateMap) (hne : itemByIdOf pp ≠ [])
    (hlk : alistLookup st (monitorKey m.name) = none) :
    checkListMonitor m pp st =
      ⟨⟨m.name, Status.initialized, some (allIdsOf (itemByIdOf pp)).length, none, none⟩,
       alistSet st (monitorKey m.name) (serializeIds (allIdsOf (itemByIdOf pp))),
       [Notification.listInit (listInitMessage m (allIdsOf (itemByIdOf pp)).length)]⟩ := by
  simp [checkListMonitor, checkListMonitor_notEmpty pp hne, hlk]

theorem checkListMonitor_badPrior (m : ListMonitor) (pp : List (List ScrapedItem))
    (st : StateMap) {raw : String} (hne : itemByIdOf pp ≠ [])
    (hlk : alistLookup st (monitorKey m.name) = some raw)
    (hparse : parseIds raw = none) :
    checkListMonitor m pp st =
      ⟨⟨m.name, Status.error, none, none, some ("state parse failure")⟩, st, []⟩ := by
  simp [checkListMonitor, checkListMonitor_notEmpty pp hne, hlk, hparse]

theorem checkListMonitor_prior (m : ListMonitor) (pp : List (List ScrapedItem))
    (st : StateMap) {raw : String} {prevIds : List String} (hne : itemByIdOf pp ≠ [])
    (hlk : alistLookup st (monitorKey m.name) = some raw)
    (hparse : parseIds raw = some prevIds) :
    checkListMonitor m pp st =
      (if (newItemsOf m.maxPrice (itemByIdOf pp) prevIds).isEmpty then
        ⟨⟨m.name, Status.unchanged, none, none, none⟩,
         alistSet st (monitorKey m.name) (serializeIds (allIdsOf (itemByIdOf pp))), []⟩
      else
        ⟨⟨m.name, Status.new_items, none,
          some (newItemsOf m.maxPrice (itemByIdOf pp) prevIds), none⟩,
         alistSet st (monitorKey m.name) (serializeIds (allIdsOf (itemByIdOf pp))),
         [Notification.listNew (formatNewItems m.name
           (newItemsOf m.maxPrice (itemByIdOf pp) prevIds) m.sections)]⟩) := by
  simp only [checkListMonitor, checkListMonitor_notEmpty pp hne, hlk, hparse]
  rfl

/-- After a run persisted the current id set, a further run over the same
extraction finds nothing new. -/
theorem checkListMonitor_second (m : ListMonitor) (pp : List (List ScrapedItem))
    (st1 : StateMap) (hne : itemByIdOf pp ≠ [])
    (hlk : alistLookup st1 (monitorKey m.name)
      = some (serializeIds (allIdsOf (itemByIdOf pp)))) :
    checkListMonitor m pp st1 =
      ⟨⟨m.name, Status.unchanged, none, none, none⟩,
       alistSet st1 (monitorKey m.name) (serializeIds (allIdsOf (itemByIdOf pp))), []⟩ := by
  rw [checkListMonitor_prior m pp st1 hne hlk
    (parseIds_serializeIds (allIdsOf (itemByIdOf pp)))]
  have hempty : newItemsOf m.maxPrice (itemByIdOf pp) (allIdsOf (itemByIdOf pp)) = [] := by
    rw [itemByIdOf_eq]
    exact newItemsOf_allIds m.maxPrice pp.flatten
  rw [hempty]
  rfl

-- ── Branch equations of `checkFieldsMonitor` ────────────────────────────

theorem checkFieldsMonitor_init (m : FieldsMonitor) (snap : List (String × Option String))
    (st : StateMap) (hlk : alistLookup st (monitorKey m.name) = none) :
    checkFieldsMonitor m snap st =
      ⟨⟨m.name, Status.initialized, none, none, none⟩,
       alistSet st (monitorKey m.name) (hashData snap),
       [Notification.fieldsInit (fieldsInitMessage m snap)]⟩ := by
  simp [checkFieldsMonitor, hlk]

theorem checkFieldsMonitor_changed (m : FieldsMonitor) (snap : List (String × Option String))
    (st : StateMap) {prevHash : String}
    (hlk : alistLookup st (monitorKey m.name) = some prevHash)
    (hne : prevHash ≠ hashData snap) :
    checkFieldsMonitor m snap st =
      ⟨⟨m.name, Status.new_items, none, none, none⟩,
       alistSet st (monitorKey m.name) (hashData snap),
       [Notification.fieldsChange (fieldsChangeMessage m snap)]⟩ := by
  simp [checkFieldsMonitor, hlk, hne]

theorem checkFieldsMonitor_same (m : FieldsMonitor) (snap : List (String × Option String))
    (st : StateMap) (hlk : alistLookup st (monitorKey m.name) = some (hashData snap)) :
    checkFieldsMonitor m snap st =
      ⟨⟨m.name, Status.unchanged, none, none, none⟩, st, []⟩ := by
  simp [checkFieldsMonitor, hlk]

-- ── Witness fixtures ────────────────────────────────────────────────────

def wItemA : ScrapedItem := ⟨"a", "", [("title", some "A")]⟩

def wItemB : ScrapedItem := ⟨"b", "", [("title", some "B")]⟩

def wItemC : ScrapedItem := ⟨"c", "", [("title", some "C")]⟩

def wMon : ListMonitor := ⟨"M", ["u1"], none, none⟩

def wFieldsMon : FieldsMonitor := ⟨"F", "u2"⟩

/-- A state holding the serialized prior ids `["a","b"]` for `wMon`. -/
def wStatePrior : StateMap := [(monitorKey ("M"), serializeIds ["a", "b"])]

-- ── Claim theorems ──────────────────────────────────────────────────────

/-- C5: whenever the merged item map of a list monitor run is empty,
`checkListMonitor` returns `unchanged`, sends no notification, and leaves
the state map entirely unmodified, regardless of prior state. -/
theorem claim5_zero_extraction_guard (m : ListMonitor) (pp : List (List ScrapedItem))
    (st : StateMap) (h : itemByIdOf pp = []) :
    checkListMonitor m pp st = ⟨⟨m.name, Status.unchanged, none, none, none⟩, st, []⟩ :=
  checkListMonitor_empty m pp st h

theorem claim5_witness :
    itemByIdOf ([([] : List ScrapedItem)]) = [] ∧
    checkListMonitor wMon [[]] wStatePrior
      = ⟨⟨wMon.name, Status.unchanged, none, none, none⟩, wStatePrior, []⟩ :=
  ⟨by decide, claim5_zero_extraction_guard wMon [[]] wStatePrior (by decide)⟩

/-- C4: on the first run of a monitor (no prior state entry for its key,
non-empty extraction), the status is `initialized`, the persisted entry is
the serialized full sorted id list (list monitor, with the total count in
the result) resp. the content hash of the snapshot (fields monitor), and
the only notification sent is the "now monitoring" one — no new-items
notification. -/
theorem claim4_first_run_baseline :
    (∀ (m : ListMonitor) (pp : List (List ScrapedItem)) (st : StateMap),
      alistLookup st (monitorKey m.name) = none → itemByIdOf pp ≠ [] →
      checkListMonitor m pp st =
        ⟨⟨m.name, Status.initialized, some (allIdsOf (itemByIdOf pp)).length, none, none⟩,
         alistSet st (monitorKey m.name) (serializeIds (allIdsOf (itemByIdOf pp))),
         [Notification.listInit (listInitMessage m (allIdsOf (itemByIdOf pp)).length)]⟩) ∧
    (∀ (fm : FieldsMonitor) (snap : List (String × Option String)) (st : StateMap),
      alistLookup st (monitorKey fm.name) = none →
      checkFieldsMonitor fm snap st =
        ⟨⟨fm.name, Status.initialized, none, none, none⟩,
         alistSet st (monitorKey fm.name) (hashData snap),
         [Notification.fieldsInit (fieldsInitMessage fm snap)]⟩) :=
  ⟨fun m pp st hlk hne => checkListMonitor_init m pp st hne hlk,
   fun fm snap st hlk => checkFieldsMonitor_init fm snap st hlk⟩

theorem claim4_witness :
    alistLookup ([] : StateMap) (monitorKey wMon.name) = none ∧
    itemByIdOf [[wItemA, wItemB]] ≠ [] ∧
    checkListMonitor wMon [[wItemA, wItemB]] [] =
      ⟨⟨wMon.name, Status.initialized, some (allIdsOf (itemByIdOf [[wItemA, wItemB]])).length,
        none, none⟩,
       alistSet [] (monitorKey wMon.name)
         (serializeIds (allIdsOf (itemByIdOf [[wItemA, wItemB]]))),
       [Notification.listInit (listInitMessage wMon
         (allIdsOf (itemByIdOf [[wItemA, wItemB]])).length)]⟩ :=
  ⟨by decide, by decide,
   claim4_first_run_baseline.1 wMon [[wItemA, wItemB]] [] (by decide) (by decide)⟩

/-- C2: running the diff engine twice on the same monitor with identical
extraction results yields `unchanged` on the second run and leaves the
persisted state byte-identical, for list monitors (whose first run
completed, i.e. did not error on an unparsable prior entry) and for
fields monitors. -/
theorem claim2_idempotent :
    (∀ (m : ListMonitor) (pp : List (List ScrapedItem)) (st : StateMap),
      (checkListMonitor m pp st).result.status ≠ Status.error →
      (checkListMonitor m pp (checkListMonitor m pp st).state).result.status
        = Status.unchanged ∧
      (checkListMonitor m pp (checkListMonitor m pp st).state).state
        = (checkListMonitor m pp st).state) ∧
    (∀ (fm : FieldsMonitor) (snap : List (String × Option String)) (st : StateMap),
      (checkFieldsMonitor fm snap (checkFieldsMonitor fm snap st).state).result.status
        = Status.unchanged ∧
      (checkFieldsMonitor fm snap (checkFieldsMonitor fm snap st).state).state
        = (checkFieldsMonitor fm snap st).state) := by
  constructor
  · intro m pp st hstatus
    by_cases hmt : itemByIdOf pp = []
    · rw [checkListMonitor_empty m pp st hmt]
      rw [checkListMonitor_empty m pp st hmt]
      exact ⟨rfl, rfl⟩
    · cases hlk : alistLookup st (monitorKey m.name) with
      | none =>
        rw [checkListMonitor_init m pp st hmt hlk]
        rw [checkListMonitor_second m pp _ hmt (alistLookup_alistSet_self st _ _)]
        exact ⟨rfl, alistSet_idem st _ _⟩
      | some raw =>
        cases hparse : parseIds raw with
        | none =>
          rw [checkListMonitor_badPrior m pp st hmt hlk hparse] at hstatus
          exact absurd rfl hstatus
        | some prevIds =>
          rw [checkListMonitor_prior m pp st hmt hlk hparse]
          by_cases hni : (newItemsOf m.maxPrice (itemByIdOf pp) prevIds).isEmpty = true
          · rw [if_pos hni]
            rw [checkListMonitor_second m pp _ hmt (alistLookup_alistSet_self st _ _)]
            exact ⟨rfl, alistSet_idem st _ _⟩
          · rw [if_neg hni]
            rw [checkListMonitor_second m pp _ hmt (alistLookup_alistSet_self st _ _)]
            exact ⟨rfl, alistSet_idem st _ _⟩
  · intro fm snap st
    cases hlk : alistLookup st (monitorKey fm.name) with
    | none =>
      rw [checkFieldsMonitor_init fm snap st hlk]
      rw [checkFieldsMonitor_same fm snap _ (alistLookup_alistSet_self st _ _)]
      exact ⟨rfl, rfl⟩
    | some prev =>
      by_cases heq : prev = hashData snap
      · subst heq
        rw [checkFieldsMonitor_same fm snap st hlk]
        rw [checkFieldsMonitor_same fm snap st hlk]
        exact ⟨rfl, rfl⟩
      · rw [checkFieldsMonitor_changed fm snap st hlk heq]
        rw [checkFieldsMonitor_same fm snap _ (alistLookup_alistSet_self st _ _)]
        exact ⟨rfl, rfl⟩

theorem claim2_witness :
    (checkListMonitor wMon [[wItemA, wItemB, wItemC]] wStatePrior).result.status
      ≠ Status.error ∧
    ((checkListMonitor wMon [[wItemA, wItemB, wItemC]]
        (checkListMonitor wMon [[wItemA, wItemB, wItemC]] wStatePrior).state).result.status
      = Status.unchanged ∧
     (checkListMonitor wMon [[wItemA, wItemB, wItemC]]
        (checkListMonitor wMon [[wItemA, wItemB, wItemC]] wStatePrior).state).state
      = (checkListMonitor wMon [[wItemA, wItemB, wItemC]] wStatePrior).state) :=
  ⟨by decide, claim2_idempotent.1 wMon [[wItemA, wItemB, wItemC]] wStatePrior (by decide)⟩

/-- C3: the persisted state of a list-monitor run is independent of the
`maxPrice` filter, and a second run over an unchanged page with a
different `maxPrice` never reports `new_items`. -/
theorem claim3_filter_independence (name : String) (urls : List String)
    (secs : Option (List String)) (p1 p2 : Option ℚ)
    (pp : List (List ScrapedItem)) (st : StateMap) :
    ((checkListMonitor ⟨name, urls, p1, secs⟩ pp st).state
      = (checkListMonitor ⟨name, urls, p2, secs⟩ pp st).state) ∧
    (checkListMonitor ⟨name, urls, p2, secs⟩ pp
        (checkListMonitor ⟨name, urls, p1, secs⟩ pp st).state).result.status
      ≠ Status.new_items := by
  by_cases hmt : itemByIdOf pp = []
  · rw [checkListMonitor_empty _ pp st hmt, checkListMonitor_empty _ pp st hmt]
    exact ⟨rfl, by simp⟩
  · cases hlk : alistLookup st (monitorKey name) with
    | none =>
      rw [checkListMonitor_init _ pp st hmt hlk, checkListMonitor_init _ pp st hmt hlk]
      refine ⟨rfl, ?_⟩
      show (checkListMonitor ⟨name, urls, p2, secs⟩ pp
        (alistSet st (monitorKey name) (serializeIds (allIdsOf (itemByIdOf pp))))).result.status
        ≠ Status.new_items
      rw [checkListMonitor_second _ pp _ hmt (alistLookup_alistSet_self st _ _)]
      simp
    | some raw =>
      cases hparse : parseIds raw with
      | none =>
        rw [checkListMonitor_badPrior _ pp st hmt hlk hparse,
          checkListMonitor_badPrior _ pp st hmt hlk hparse]
        exact ⟨rfl, by simp⟩
      | some prevIds =>
        have hstate : ∀ mm : ListMonitor, mm.name = name →
            (checkListMonitor mm pp st).state
              = alistSet st (monitorKey name) (serializeIds (allIdsOf (itemByIdOf pp))) := by
          intro mm hname
          rw [checkListMonitor_prior mm pp st hmt (by rw [hname]; exact hlk)
            hparse]
          by_cases hni : (newItemsOf mm.maxPrice (itemByIdOf pp) prevIds).isEmpty = true
          · rw [if_pos hni, hname]
          · rw [if_neg hni, hname]
        refine ⟨?_, ?_⟩
        · rw [hstate ⟨name, urls, p1, secs⟩ rfl, hstate ⟨name, urls, p2, secs⟩ rfl]
        · rw [hstate ⟨name, urls, p1, secs⟩ rfl]
          rw [checkListMonitor_second _ pp _ hmt (alistLookup_alistSet_self st _ _)]
          simp

/-- C10: whenever `checkListMonitor` reports `new_items`, every reported
item's id is contained in the id array persisted in the same run, and an
immediately following run over the same extraction reports `unchanged`
(so no item is reported as new twice). -/
theorem claim10_no_repeat (m : ListMonitor) (pp : List (List ScrapedItem)) (st : StateMap)
    (hstatus : (checkListMonitor m pp st).result.status = Status.new_items) :
    (alistLookup (checkListMonitor m pp st).state (monitorKey m.name)
        = some (serializeIds (allIdsOf (itemByIdOf pp))) ∧
      ∀ it ∈ ((checkListMonitor m pp st).result.newItems).getD [],
        it.id ∈ allIdsOf (itemByIdOf pp)) ∧
    (checkListMonitor m pp (checkListMonitor m pp st).state).result.status
      = Status.unchanged := by
  by_cases hmt : itemByIdOf pp = []
  · rw [checkListMonitor_empty m pp st hmt] at hstatus
    simp at hstatus
  · cases hlk : alistLookup st (monitorKey m.name) with
    | none =>
      rw [checkListMonitor_init m pp st hmt hlk] at hstatus
      simp at hstatus
    | some raw =>
      cases hparse : parseIds raw with
      | none =>
        rw [checkListMonitor_badPrior m pp st hmt hlk hparse] at hstatus
        simp at hstatus
      | some prevIds =>
        by_cases hni : (newItemsOf m.maxPrice (itemByIdOf pp) prevIds).isEmpty = true
        · rw [checkListMonitor_prior m pp st hmt hlk hparse, if_pos hni] at hstatus
          simp at hstatus
        · rw [checkListMonitor_prior m pp st hmt hlk hparse, if_neg hni]
          refine ⟨⟨alistLookup_alistSet_self st _ _, ?_⟩, ?_⟩
          · intro it hit
            have hit2 : it ∈ newItemsOf m.maxPrice (itemByIdOf pp) prevIds := by
              simpa using hit
            have hc :=
              ((mem_newItemsOf m.maxPrice pp.flatten prevIds it).mp hit2).1
            exact mem_sortIds.mpr (candidate_id_mem_keys hc)
          · show (checkListMonitor m pp (alistSet st (monitorKey m.name)
              (serializeIds (allIdsOf (itemByIdOf pp))))).result.status = Status.unchanged
            rw [checkListMonitor_second m pp _ hmt (alistLookup_alistSet_self st _ _)]

theorem claim10_witness :
    (checkListMonitor wMon [[wItemA, wItemB, wItemC]] wStatePrior).result.status
      = Status.new_items ∧
    ((alistLookup (checkListMonitor wMon [[wItemA, wItemB, wItemC]] wStatePrior).state
        (monitorKey wMon.name)
        = some (serializeIds (allIdsOf (itemByIdOf [[wItemA, wItemB, wItemC]]))) ∧
      ∀ it ∈ ((checkListMonitor wMon [[wItemA, wItemB, wItemC]]
          wStatePrior).result.newItems).getD [],
        it.id ∈ allIdsOf (itemByIdOf [[wItemA, wItemB, wItemC]])) ∧
     (checkListMonitor wMon [[wItemA, wItemB, wItemC]]
        (checkListMonitor wMon [[wItemA, wItemB, wItemC]] wStatePrior).state).result.status
      = Status.unchanged) :=
  ⟨by decide, claim10_no_repeat wMon [[wItemA, wItemB, wItemC]] wStatePrior (by decide)⟩

/-- C1 (counterexample to the claim as stated): on the spec's own example
(prior ids `["a","b"]`, current merged ids `["a","b","c"]`, no filter) the
run does report `new_items` with the new item list, but the result's
`count` field is not set — the claim's "with the new item list and count"
is false for the count part. -/
theorem claim1_counterexample :
    (checkListMonitor wMon [[wItemA, wItemB, wItemC]] wStatePrior).result.status
      = Status.new_items ∧
    (checkListMonitor wMon [[wItemA, wItemB, wItemC]] wStatePrior).result.newItems
      = some [wItemC] ∧
    (checkListMonitor wMon [[wItemA, wItemB, wItemC]] wStatePrior).result.count = none := by
  decide

/-- C1 (amended): with prior persisted state that parses to `prevIds` and
a non-empty merged map, `checkListMonitor` persists the serialized current
full sorted id list regardless of novelty; the new items are exactly the
candidates whose id is absent from the previous id set, in strictly
ascending id order; a non-empty new-item list is reported as `new_items`
carrying the list (the `count` field stays unset), otherwise the run
reports `unchanged`. -/
theorem claim1_diff_with_prior (m : ListMonitor) (pp : List (List ScrapedItem))
    (st : StateMap) (raw : String) (prevIds : List String)
    (hlk : alistLookup st (monitorKey m.name) = some raw)
    (hparse : parseIds raw = some prevIds)
    (hne : itemByIdOf pp ≠ []) :
    (checkListMonitor m pp st).state
      = alistSet st (monitorKey m.name) (serializeIds (allIdsOf (itemByIdOf pp))) ∧
    (∀ it, it ∈ newItemsOf m.maxPrice (itemByIdOf pp) prevIds
      ↔ (it ∈ candidatesOf m.maxPrice (itemByIdOf pp) ∧ ¬ (it.id ∈ prevIds))) ∧
    ((newItemsOf m.maxPrice (itemByIdOf pp) prevIds).map (fun it => it.id)).Pairwise
      (fun a b => strLe a b = true ∧ a ≠ b) ∧
    (newItemsOf m.maxPrice (itemByIdOf pp) prevIds = [] →
      (checkListMonitor m pp st).result.status = Status.unchanged ∧
      (checkListMonitor m pp st).result.newItems = none ∧
      (checkListMonitor m pp st).sent = []) ∧
    (newItemsOf m.maxPrice (itemByIdOf pp) prevIds ≠ [] →
      (checkListMonitor m pp st).result.status = Status.new_items ∧
      (checkListMonitor m pp st).result.newItems
        = some (newItemsOf m.maxPrice (itemByIdOf pp) prevIds) ∧
      (checkListMonitor m pp st).result.count = none ∧
      (checkListMonitor m pp st).sent = [Notification.listNew (formatNewItems m.name
        (newItemsOf m.maxPrice (itemByIdOf pp) prevIds) m.sections)]) := by
  rw [checkListMonitor_prior m pp st hne hlk hparse]
  refine ⟨?_, ?_, ?_, ?_, ?_⟩
  · by_cases hni : (newItemsOf m.maxPrice (itemByIdOf pp) prevIds).isEmpty = true
    · rw [if_pos hni]
    · rw [if_neg hni]
  · intro it
    exact mem_newItemsOf m.maxPrice pp.flatten prevIds it
  · rw [show newItemsOf m.maxPrice (itemByIdOf pp) prevIds
      = newItemsOf m.maxPrice (mapOfItems (fun i => i.id) pp.flatten) prevIds from rfl]
    rw [newItemsOf_ids]
    exact ((sortIds_sorted _).and
      (sortIds_nodup (candidates_ids_nodup m.maxPrice pp.flatten))).filter _
  · intro hni
    rw [if_pos (List.isEmpty_iff.mpr hni)]
    exact ⟨rfl, rfl, rfl⟩
  · intro hni
    rw [if_neg (fun hE => hni (List.isEmpty_iff.mp hE))]
    exact ⟨rfl, rfl, rfl, rfl⟩

theorem claim1_witness :
    alistLookup wStatePrior (monitorKey wMon.name) = some (serializeIds ["a", "b"]) ∧
    parseIds (serializeIds ["a", "b"]) = some ["a", "b"] ∧
    itemByIdOf [[wItemA, wItemB, wItemC]] ≠ [] ∧
    ((checkListMonitor wMon [[wItemA, wItemB, wItemC]] wStatePrior).state
      = alistSet wStatePrior (monitorKey wMon.name)
          (serializeIds (allIdsOf (itemByIdOf [[wItemA, wItemB, wItemC]]))) ∧
     (∀ it, it ∈ newItemsOf wMon.maxPrice (itemByIdOf [[wItemA, wItemB, wItemC]]) ["a", "b"]
       ↔ (it ∈ candidatesOf wMon.maxPrice (itemByIdOf [[wItemA, wItemB, wItemC]]) ∧
          ¬ (it.id ∈ (["a", "b"] : List String)))) ∧
     ((newItemsOf wMon.maxPrice (itemByIdOf [[wItemA, wItemB, wItemC]])
        ["a", "b"]).map (fun it => it.id)).Pairwise
          (fun a b => strLe a b = true ∧ a ≠ b) ∧
     (newItemsOf wMon.maxPrice (itemByIdOf [[wItemA, wItemB, wItemC]]) ["a", "b"] = [] →
       (checkListMonitor wMon [[wItemA, wItemB, wItemC]] wStatePrior).result.status
         = Status.unchanged ∧
       (checkListMonitor wMon [[wItemA, wItemB, wItemC]] wStatePrior).result.newItems = none ∧
       (checkListMonitor wMon [[wItemA, wItemB, wItemC]] wStatePrior).sent = []) ∧
     (newItemsOf wMon.maxPrice (itemByIdOf [[wItemA, wItemB, wItemC]]) ["a", "b"] ≠ [] →
       (checkListMonitor wMon [[wItemA, wItemB, wItemC]] wStatePrior).result.status
         = Status.new_items ∧
       (checkListMonitor wMon [[wItemA, wItemB, wItemC]] wStatePrior).result.newItems
         = some (newItemsOf wMon.maxPrice (itemByIdOf [[wItemA, wItemB, wItemC]]) ["a", "b"]) ∧
       (checkListMonitor wMon [[wItemA, wItemB, wItemC]] wStatePrior).result.count = none ∧
       (checkListMonitor wMon [[wItemA, wItemB, wItemC]] wStatePrior).sent
         = [Notification.listNew (formatNewItems wMon.name
             (newItemsOf wMon.maxPrice (itemByIdOf [[wItemA, wItemB, wItemC]]) ["a", "b"])
             wMon.sections)])) :=
  ⟨by decide, by decide, by decide,
   claim1_diff_with_prior wMon [[wItemA, wItemB, wItemC]] wStatePrior
     (serializeIds ["a", "b"]) ["a", "b"] (by decide) (by decide) (by decide)⟩

/-- C6: `extractItemList` emits an item only when a (truthy) id was
resolved for its element; an element whose id resolution yields nothing
(or the falsy empty string) produces no `ScrapedItem` at all, and every
id any run persists is the id of some extracted item. -/
theorem claim6_id_required :
    (∀ (elems : List Element) (fieldSelectors : List (String × String))
        (opts : ExtractOptions) (resolveUrl : String → String → Option String)
        (item : ScrapedItem),
      item ∈ extractItemList elems fieldSelectors opts resolveUrl →
      ∃ el ∈ elems,
        resolveItemId el opts (extractedFields el opts resolveUrl fieldSelectors)
          = some item.id ∧ item.id ≠ "" ∧
        item.fields = extractedFields el opts resolveUrl fieldSelectors) ∧
    (∀ (el : Element) (fieldSelectors : List (String × String)) (opts : ExtractOptions)
        (resolveUrl : String → String → Option String),
      (∀ i, resolveItemId el opts (extractedFields el opts resolveUrl fieldSelectors)
          = some i → i = "") →
      processElement el opts resolveUrl fieldSelectors = none) ∧
    (∀ (pp : List (List ScrapedItem)) (i : String),
      i ∈ allIdsOf (itemByIdOf pp) → ∃ it ∈ pp.flatten, it.id = i) := by
  refine ⟨?_, ?_, ?_⟩
  · intro elems fieldSelectors opts resolveUrl item hmem
    rcases List.mem_filterMap.mp hmem with ⟨el, hel, hpe⟩
    refine ⟨el, hel, ?_⟩
    simp only [processElement] at hpe
    cases hid : resolveItemId el opts (extractedFields el opts resolveUrl fieldSelectors) with
    | none => rw [hid] at hpe; simp at hpe
    | some i =>
      rw [hid] at hpe
      by_cases hie : i = ""
      · simp [hie] at hpe
      · simp [hie] at hpe
        rw [← hpe]
        exact ⟨rfl, hie, rfl⟩
  · intro el fieldSelectors opts resolveUrl hempty
    simp only [processElement]
    cases hid : resolveItemId el opts (extractedFields el opts resolveUrl fieldSelectors) with
    | none => simp [hid]
    | some i =>
      have hie := hempty i hid
      simp [hid, hie]
  · intro pp i hi
    have h1 : i ∈ (mapOfItems (fun it => it.id) pp.flatten).map Prod.fst :=
      mem_sortIds.mp hi
    have h2 := (keys_mapOfItems_mem (fun it => it.id) pp.flatten i).mp h1
    rcases List.mem_map.mp h2 with ⟨it, hit, hie⟩
    exact ⟨it, hit, hie⟩

def wElement : Element :=
  ⟨fun a => if a = "data-id" then some "xyz" else none,
   fun _ _ => none,
   fun _ => ""⟩

def wOpts : ExtractOptions := ⟨none, some ("data-id"), none, []⟩

theorem find?_markAll_ne {α : Type} (k : String) (v : α) (s : String) (hsk : s ≠ k) :
    ∀ g : List (String × α),
      (g.map (fun p => if p.1 = k then (k, v) else p)).find? (fun p => p.1 = s)
        = g.find? (fun p => p.1 = s) := by
  intro g
  induction g with
  | nil => rfl
  | cons p rest ih =>
    by_cases hp : p.1 = k
    · have hfp : (if p.1 = k then (k, v) else p) = (k, v) := if_pos hp
      have hks : ¬ ((k, v).1 = s) := fun he => hsk (he.symm)
      have hps : ¬ (p.1 = s) := fun he => hsk (by rw [← he, hp])
      rw [List.map_cons, hfp, List.find?_cons_of_neg _ (by simpa using hks),
        List.find?_cons_of_neg _ (by simpa using hps), ih]
    · have hfp : (if p.1 = k then (k, v) else p) = p := if_neg hp
      by_cases hps : p.1 = s
      · rw [List.map_cons, hfp, List.find?_cons_of_pos _ (by simpa using hps),
          List.find?_cons_of_pos _ (by simpa using hps)]
      · rw [List.map_cons, hfp, List.find?_cons_of_neg _ (by simpa using hps),
          List.find?_cons_of_neg _ (by simpa using hps), ih]

theorem alistLookup_alistSet {α : Type} (g : List (String × α)) (k : String) (v : α)
    (s : String) :
    alistLookup (alistSet g k v) s = if s = k then some v else alistLookup g s := by
  by_cases hsk : s = k
  · rw [if_pos hsk, hsk]
    exact alistLookup_alistSet_self g k v
  · rw [if_neg hsk]
    unfold alistSet alistLookup
    by_cases hany : g.any (fun p => p.1 = k) = true
    · rw [if_pos hany, find?_markAll_ne k v s hsk g]
    · rw [if_neg hany, List.find?_append]
      have h1 : ([(k, v)]).find? (fun p => p.1 = s) = none := by
        rw [List.find?_cons_of_neg _ (by simpa using fun he => hsk (Eq.symm he))]
        rfl
      rw [h1]
      simp

theorem mapPush_eq (g : List (String × List ScrapedItem)) (k : String) (it : ScrapedItem) :
    mapPush g k it = alistSet g k (((alistLookup g k).getD []) ++ [it]) := by
  unfold mapPush
  cases hl : alistLookup g k with
  | some l =>
    have hany : g.any (fun p => p.1 = k) = true :=
      List.any_eq_true.mpr ⟨(k, l), alistLookup_mem hl, by simp⟩
    unfold alistSet
    rw [if_pos hany]
    rfl
  | none =>
    have hany : ¬ (g.any (fun p => p.1 = k) = true) := by
      intro h
      rcases List.any_eq_true.mp h with ⟨p, hp, hk⟩
      have hk2 := of_decide_eq_true hk
      unfold alistLookup at hl
      cases hfind : g.find? (fun p => p.1 = k) with
      | none =>
        have := List.find?_eq_none.mp hfind p hp
        simp [hk2] at this
      | some q => rw [hfind] at hl; simp at hl
    unfold alistSet
    rw [if_neg hany]
    rfl

theorem groupsOf_lookup (secs : List String) :
    ∀ (items : List ScrapedItem) (g : List (String × List ScrapedItem)) (s : String),
      alistLookup (items.foldl
          (fun g2 it => mapPush g2 (detectSection (titleOf it) secs) it) g) s
        = (match alistLookup g s with
           | some l0 =>
             some (l0 ++ items.filter (fun it => detectSection (titleOf it) secs = s))
           | none =>
             (if (items.filter (fun it => detectSection (titleOf it) secs = s)).isEmpty
              then none
              else some (items.filter (fun it => detectSection (titleOf it) secs = s)))) := by
  intro items
  induction items with
  | nil =>
    intro g s
    cases hg : alistLookup g s <;> simp [hg]
  | cons it rest ih =>
    intro g s
    simp only [List.foldl_cons]
    rw [ih, mapPush_eq, alistLookup_alistSet]
    by_cases hdet : detectSection (titleOf it) secs = s
    · rw [hdet]
      rw [if_pos rfl]
      cases hg : alistLookup g s with
      | none => simp [hg, List.filter_cons, hdet]
      | some l0 => simp [hg, List.filter_cons, hdet]
    · rw [if_neg (fun he => hdet he.symm)]
      have hfil : List.filter (fun it2 => detectSection (titleOf it2) secs = s) (it :: rest)
          = rest.filter (fun it2 => detectSection (titleOf it2) secs = s) := by
        simp [List.filter_cons, hdet]
      rw [hfil]

/-- C7: with configured section keywords, the grouping map of
`formatNewItems` holds, under each section name, exactly the items whose
title's first matching keyword (case-insensitive substring, "Others" when
none matches) is that section, with empty groups absent; on the spec's
example the Avengers-titled item renders under "Avengers" and the
unmatched one under a trailing "Others" group. -/
theorem claim7_section_grouping :
    (∀ (secs : List String) (items : List ScrapedItem) (s : String),
      alistLookup (groupsOf secs items) s
        = (if (items.filter (fun it => detectSection (titleOf it) secs = s)).isEmpty
           then none
           else some (items.filter (fun it => detectSection (titleOf it) secs = s)))) ∧
    detectSection ("Avengers: New #1") ["X-Men", "Avengers"] = "Avengers" ∧
    detectSection ("Untitled Comic") ["X-Men", "Avengers"] = "Others" ∧
    formatNewItems ("M") [⟨"1", "", [("title", some "Avengers: New #1")]⟩,
        ⟨"2", "", [("title", some "Untitled Comic")]⟩] (some ["X-Men", "Avengers"])
      = "⚡ <b>2 new items</b> — M\n\n<b>Avengers</b>\n• <b>Avengers: New #1</b>\n\n<b>Others</b>\n• <b>Untitled Comic</b>" := by
  refine ⟨?_, by decide, by decide, by decide⟩
  intro secs items s
  have h := groupsOf_lookup secs items [] s
  have hnil : alistLookup ([] : List (String × List ScrapedItem)) s = none := rfl
  rw [hnil] at h
  exact h

theorem claim6_witness :
    (⟨"xyz", "", []⟩ : ScrapedItem) ∈ extractItemList [wElement] [] wOpts (fun _ _ => none) ∧
    (∃ el ∈ [wElement],
      resolveItemId el wOpts (extractedFields el wOpts (fun _ _ => none) [])
        = some (⟨"xyz", "", []⟩ : ScrapedItem).id ∧
      (⟨"xyz", "", []⟩ : ScrapedItem).id ≠ "" ∧
      (⟨"xyz", "", []⟩ : ScrapedItem).fields
        = extractedFields el wOpts (fun _ _ => none) []) :=
  ⟨by decide,
   claim6_id_required.1 [wElement] [] wOpts (fun _ _ => none) ⟨"xyz", "", []⟩ (by decide)⟩

-- ── Chunking lemmas ─────────────────────────────────────────────────────

theorem splitNl_no_nl : ∀ l : List Char, ¬ ('\n' ∈ l) → splitNl l = [l] := by
  intro l
  induction l with
  | nil => intro _; rfl
  | cons c rest ih =>
    intro h
    have hc : ¬ (c = '\n') := fun he => h (by rw [he]; exact List.mem_cons_self _ _)
    have hr : ¬ ('\n' ∈ rest) := fun hm => h (List.mem_cons_of_mem _ hm)
    rw [splitNl, if_neg hc, ih hr]

theorem splitNl_append_nl : ∀ (l t : List Char), ¬ ('\n' ∈ l) →
    splitNl (l ++ '\n' :: t) = l :: splitNl t := by
  intro l
  induction l with
  | nil =>
    intro t _
    rw [List.nil_append, splitNl, if_pos rfl]
  | cons c rest ih =>
    intro t h
    have hc : ¬ (c = '\n') := fun he => h (by rw [he]; exact List.mem_cons_self _ _)
    have hr : ¬ ('\n' ∈ rest) := fun hm => h (List.mem_cons_of_mem _ hm)
    rw [List.cons_append, splitNl, if_neg hc, ih t hr]

theorem joinNl_cons_ne (x : List Char) {t : List (List Char)} (ht : t ≠ []) :
    joinNl (x :: t) = x ++ '\n' :: joinNl t := by
  match t with
  | [] => exact absurd rfl ht
  | b :: t2 => rfl

theorem splitNl_joinNl : ∀ lines : List (List Char), lines ≠ [] →
    (∀ l ∈ lines, ¬ ('\n' ∈ l)) → splitNl (joinNl lines) = lines := by
  intro lines
  induction lines with
  | nil => intro h _; exact absurd rfl h
  | cons l rest ih =>
    intro _ h
    match rest with
    | [] =>
      rw [joinNl]
      exact splitNl_no_nl l (h l (by simp))
    | b :: rest2 =>
      rw [joinNl_cons_ne l (by simp), splitNl_append_nl l _ (h l (by simp)),
        ih (by simp) (fun x hx => h x (List.mem_cons_of_mem _ hx))]

theorem joinNl_append_last : ∀ (xs : List (List Char)) (a b : List Char),
    joinNl (xs ++ [a ++ b]) = joinNl (xs ++ [a]) ++ b := by
  intro xs
  induction xs with
  | nil => intro a b; rfl
  | cons x xs ih =>
    intro a b
    rw [List.cons_append, List.cons_append,
      joinNl_cons_ne x (by simp), joinNl_cons_ne x (by simp), ih]
    simp

theorem joinNl_concat_ne : ∀ (xs : List (List Char)) (b : List Char), xs ≠ [] →
    joinNl (xs ++ [b]) = joinNl xs ++ '\n' :: b := by
  intro xs
  induction xs with
  | nil => intro b h; exact absurd rfl h
  | cons x xs ih =>
    intro b _
    match xs with
    | [] => rfl
    | y :: xs2 =>
      rw [List.cons_append, joinNl_cons_ne x (by simp), joinNl_cons_ne x (by simp),
        ih b (by simp)]
      simp

theorem chunksOf_mem_length (step : Nat) :
    ∀ (n : Nat) (l : List Char), l.length ≤ n →
      ∀ piece ∈ chunksOf step l, piece.length ≤ step + 1 := by
  intro n
  induction n with
  | zero =>
    intro l hl piece hp
    match l with
    | [] => simp [chunksOf] at hp
    | c :: rest => simp at hl
  | succ n ih =>
    intro l hl piece hp
    match l with
    | [] => simp [chunksOf] at hp
    | c :: rest =>
      rw [chunksOf] at hp
      rcases List.mem_cons.mp hp with h | h
      · subst h
        exact List.length_take_le _ _
      · refine ih ((c :: rest).drop (step + 1)) ?_ piece h
        simp only [List.length_drop, List.length_cons]
        simp only [List.length_cons] at hl
        omega

theorem hardSlice_mem_length {maxLen : Nat} (hml : 0 < maxLen) {l piece : List Char}
    (h : piece ∈ hardSlice maxLen l) : piece.length ≤ maxLen := by
  have := chunksOf_mem_length (maxLen - 1) l.length l (le_refl _) piece h
  omega

theorem chunkFold_bound (maxLen : Nat) (hml : 0 < maxLen) :
    ∀ (lines : List (List Char)) (chunks : List (List Char)) (current : List Char),
      (∀ c ∈ chunks, c.length ≤ maxLen) → current.length ≤ maxLen →
      ((∀ c ∈ (lines.foldl (chunkStep maxLen) (chunks, current)).1, c.length ≤ maxLen) ∧
       (lines.foldl (chunkStep maxLen) (chunks, current)).2.length ≤ maxLen) := by
  intro lines
  induction lines with
  | nil => intro chunks current hc hcur; exact ⟨hc, hcur⟩
  | cons line rest ih =>
    intro chunks current hc hcur
    simp only [List.foldl_cons, chunkStep]
    by_cases h1 : (if current.isEmpty then line else current ++ '\n' :: line).length ≤ maxLen
    · rw [if_pos h1]
      exact ih chunks _ hc h1
    · rw [if_neg h1]
      have hc2 : ∀ c ∈ (if current.isEmpty then chunks else chunks ++ [current]),
          c.length ≤ maxLen := by
        by_cases he : current.isEmpty
        · rw [if_pos he]; exact hc
        · rw [if_neg he]
          intro c hcm
          rcases List.mem_append.mp hcm with h | h
          · exact hc c h
          · rw [List.mem_singleton.mp h]; exact hcur
      by_cases h2 : line.length ≤ maxLen
      · rw [if_pos h2]
        exact ih _ line hc2 h2
      · rw [if_neg h2]
        refine ih _ [] ?_ (by simp)
        intro c hcm
        rcases List.mem_append.mp hcm with h | h
        · exact hc2 c h
        · exact hardSlice_mem_length hml h

theorem chunkFold_join (maxLen : Nat) :
    ∀ (lines : List (List Char)) (chunks : List (List Char)) (current : List Char),
      current ≠ [] →
      (∀ l ∈ lines, l ≠ [] ∧ l.length ≤ maxLen) →
      ((lines.foldl (chunkStep maxLen) (chunks, current)).2 ≠ [] ∧
       joinNl ((lines.foldl (chunkStep maxLen) (chunks, current)).1
           ++ [(lines.foldl (chunkStep maxLen) (chunks, current)).2])
         = joinNl (chunks ++ [current])
           ++ (lines.map (fun l => '\n' :: l)).flatten) := by
  intro lines
  induction lines with
  | nil => intro chunks current hcur _; exact ⟨hcur, by simp⟩
  | cons line rest ih =>
    intro chunks current hcur h
    have hline := h line (by simp)
    have hrest : ∀ l ∈ rest, l ≠ [] ∧ l.length ≤ maxLen :=
      fun l hl => h l (List.mem_cons_of_mem _ hl)
    have hemp : current.isEmpty = false := by
      cases hE : current.isEmpty
      · rfl
      · exact absurd (List.isEmpty_iff.mp hE) hcur
    simp only [List.foldl_cons, chunkStep, hemp, Bool.false_eq_true, if_false]
    by_cases h1 : (current ++ '\n' :: line).length ≤ maxLen
    · rw [if_pos h1]
      have hnext : current ++ '\n' :: line ≠ [] := by simp
      rcases ih chunks _ hnext hrest with ⟨hne, hjoin⟩
      refine ⟨hne, ?_⟩
      rw [hjoin, joinNl_append_last chunks current ('\n' :: line)]
      simp
    · rw [if_neg h1, if_pos hline.2]
      rcases ih (chunks ++ [current]) line hline.1 hrest with ⟨hne, hjoin⟩
      refine ⟨hne, ?_⟩
      rw [hjoin, joinNl_concat_ne (chunks ++ [current]) line (by simp)]
      simp

theorem joinNl_eq_head_flat (l0 : List Char) (ls : List (List Char)) :
    joinNl (l0 :: ls) = l0 ++ (ls.map (fun l => '\n' :: l)).flatten := by
  induction ls generalizing l0 with
  | nil => simp [joinNl]
  | cons b bs ih =>
    rw [joinNl_cons_ne l0 (by simp), ih b]
    simp

theorem joinNl_shift (a b : List Char) (bs : List (List Char)) :
    joinNl ((a ++ '\n' :: b) :: bs) = joinNl (a :: b :: bs) := by
  match bs with
  | [] => rfl
  | c :: bs2 =>
    rw [joinNl_cons_ne _ (by simp), joinNl_cons_ne a (by simp), joinNl_cons_ne b (by simp)]
    simp

theorem intercalate_go_mk : ∀ (ls : List (List Char)) (a : List Char),
    String.intercalate.go ⟨a⟩ ("\n") (ls.map (fun l => (⟨l⟩ : String)))
      = (⟨joinNl (a :: ls)⟩ : String) := by
  intro ls
  induction ls with
  | nil => intro a; rfl
  | cons b bs ih =>
    intro a
    rw [List.map_cons, String.intercalate.go]
    have h1 : ((⟨a⟩ : String) ++ ("\n") ++ (⟨b⟩ : String)) = (⟨a ++ '\n' :: b⟩ : String) := by
      show (⟨(a ++ ['\n']) ++ b⟩ : String) = (⟨a ++ '\n' :: b⟩ : String)
      exact congrArg String.mk (by simp)
    rw [h1, ih (a ++ '\n' :: b)]
    exact congrArg String.mk (joinNl_shift a b bs)

theorem intercalate_mk (ls : List (List Char)) (hne : ls ≠ []) :
    String.intercalate ("\n") (ls.map (fun l => (⟨l⟩ : String))) = (⟨joinNl ls⟩ : String) := by
  match ls with
  | [] => exact absurd rfl hne
  | a :: rest =>
    rw [List.map_cons, String.intercalate]
    exact intercalate_go_mk rest a

theorem chunkChars_bound (text : List Char) (maxLen : Nat) (hml : 0 < maxLen) :
    ∀ part ∈ chunkTelegramChars text maxLen, part.length ≤ maxLen := by
  intro part hp
  unfold chunkTelegramChars at hp
  by_cases h : text.length ≤ maxLen
  · rw [if_pos h] at hp
    rw [List.mem_singleton.mp hp]
    exact h
  · rw [if_neg h] at hp
    have hb := chunkFold_bound maxLen hml (splitNl text) [] [] (by simp) (by simp)
    unfold chunkFinish at hp
    by_cases he : ((splitNl text).foldl (chunkStep maxLen) ([], [])).2.isEmpty = true
    · rw [if_pos he] at hp
      exact hb.1 part hp
    · rw [if_neg he] at hp
      rcases List.mem_append.mp hp with h2 | h2
      · exact hb.1 part h2
      · rw [List.mem_singleton.mp h2]
        exact hb.2

theorem chunkChars_join (lines : List (List Char)) (maxLen : Nat)
    (hne : lines ≠ [])
    (h : ∀ l ∈ lines, l ≠ [] ∧ l.length ≤ maxLen ∧ ¬ ('\n' ∈ l)) :
    chunkTelegramChars (joinNl lines) maxLen ≠ [] ∧
    joinNl (chunkTelegramChars (joinNl lines) maxLen) = joinNl lines := by
  unfold chunkTelegramChars
  by_cases hlen : (joinNl lines).length ≤ maxLen
  · rw [if_pos hlen]
    exact ⟨by simp, rfl⟩
  · rw [if_neg hlen]
    have hsplit : splitNl (joinNl lines) = lines :=
      splitNl_joinNl lines hne (fun l hl => (h l hl).2.2)
    rw [hsplit]
    match lines, hne, h with
    | l0 :: rest, _, h =>
      have hl0 := h l0 (by simp)
      have hstep1 : chunkStep maxLen ([], []) l0 = ([], l0) := by
        simp [chunkStep, hl0.2.1]
      rw [List.foldl_cons, hstep1]
      rcases chunkFold_join maxLen rest [] l0 hl0.1
        (fun l hl => ⟨(h l (List.mem_cons_of_mem _ hl)).1,
          (h l (List.mem_cons_of_mem _ hl)).2.1⟩) with ⟨hne2, hjoin⟩
      unfold chunkFinish
      have hemp : (rest.foldl (chunkStep maxLen) ([], l0)).2.isEmpty = false := by
        cases hE : (rest.foldl (chunkStep maxLen) ([], l0)).2.isEmpty
        · rfl
        · exact absurd (List.isEmpty_iff.mp hE) hne2
      rw [if_neg (by simp [hemp])]
      refine ⟨by simp, ?_⟩
      rw [hjoin]
      have hj0 : joinNl (([] : List (List Char)) ++ [l0]) = l0 := rfl
      rw [hj0]
      exact (joinNl_eq_head_flat l0 rest).symm

/-- C8 (amended): every part returned by `chunkTelegramMessage` is at most
`maxLen` characters long (for any positive `maxLen`, hard-sliced long
lines included); and for a text whose newline-separated lines are all
non-empty and at most `maxLen` long, joining the parts with a newline
reproduces the original text exactly. -/
theorem claim8_amended :
    (∀ (text : String) (maxLen : Nat), 0 < maxLen →
      ∀ part ∈ chunkTelegramMessage text maxLen, part.length ≤ maxLen) ∧
    (∀ (lines : List (List Char)) (maxLen : Nat), 0 < maxLen → lines ≠ [] →
      (∀ l ∈ lines, l ≠ [] ∧ l.length ≤ maxLen ∧ ¬ ('\n' ∈ l)) →
      String.intercalate ("\n") (chunkTelegramMessage (⟨joinNl lines⟩ : String) maxLen)
        = (⟨joinNl lines⟩ : String)) := by
  constructor
  · intro text maxLen hml part hp
    unfold chunkTelegramMessage at hp
    rcases List.mem_map.mp hp with ⟨l, hl, he⟩
    rw [← he]
    exact chunkChars_bound text.data maxLen hml l hl
  · intro lines maxLen _ hne h
    rcases chunkChars_join lines maxLen hne h with ⟨hcne, hcjoin⟩
    unfold chunkTelegramMessage
    have hdata : (⟨joinNl lines⟩ : String).data = joinNl lines := rfl
    rw [hdata, intercalate_mk _ hcne, hcjoin]

/-- C8 (counterexample to the claim as stated): the 3801-character text
consisting of a leading newline followed by 3800 `a`s has every
newline-separated line within the safe length, yet the chunker drops the
leading empty line, so joining the parts does not reproduce the text. -/
def c8text : List Char := '\n' :: List.replicate 3800 'a'

theorem chunkStep_emptyCurrent (maxLen : Nat) (chunks : List (List Char))
    (line : List Char) :
    chunkStep maxLen (chunks, []) line
      = if line.length ≤ maxLen then (chunks, line)
        else (chunks ++ hardSlice maxLen line, []) := by
  simp [chunkStep]
  intro h
  rw [if_pos h]

theorem claim8_counterexample :
    ((splitNl c8text).all (fun l => l.length ≤ TELEGRAM_SAFE_CHUNK_LEN)) = true ∧
    joinNl (chunkTelegramChars c8text TELEGRAM_SAFE_CHUNK_LEN) ≠ c8text := by
  have hrep : (List.replicate 3800 'a').length = 3800 := List.length_replicate _ _
  have hnl : ¬ ('\n' ∈ List.replicate 3800 'a') := by
    intro hmem
    have := List.eq_of_mem_replicate hmem
    simp at this
  have hsplit : splitNl c8text = [[], List.replicate 3800 'a'] := by
    show splitNl ('\n' :: List.replicate 3800 'a') = [[], List.replicate 3800 'a']
    rw [splitNl, if_pos rfl, splitNl_no_nl _ hnl]
  constructor
  · rw [hsplit]
    simp only [List.all_cons, List.all_nil, List.length_nil, hrep,
      TELEGRAM_SAFE_CHUNK_LEN]
    decide
  · have hlen : c8text.length = 3801 := by
      show ('\n' :: List.replicate 3800 'a').length = 3801
      rw [List.length_cons, hrep]
    have hgt : ¬ (c8text.length ≤ TELEGRAM_SAFE_CHUNK_LEN) := by
      rw [hlen]
      decide
    unfold chunkTelegramChars
    rw [if_neg hgt, hsplit]
    have hstep1 : chunkStep TELEGRAM_SAFE_CHUNK_LEN ([], []) [] = ([], []) := by
      rw [chunkStep_emptyCurrent, if_pos (by decide)]
    have hle : (List.replicate 3800 'a').length ≤ TELEGRAM_SAFE_CHUNK_LEN := by
      rw [hrep]
      decide
    have hstep2 : chunkStep TELEGRAM_SAFE_CHUNK_LEN ([], []) (List.replicate 3800 'a')
        = ([], List.replicate 3800 'a') := by
      rw [chunkStep_emptyCurrent, if_pos hle]
    rw [List.foldl_cons, hstep1, List.foldl_cons, hstep2, List.foldl_nil]
    have hemp : ¬ ((List.replicate 3800 'a').isEmpty = true) := by
      intro hE
      have h0 := List.isEmpty_iff.mp hE
      have h1 := congrArg List.length h0
      rw [hrep] at h1
      simp at h1
    unfold chunkFinish
    rw [if_neg hemp]
    intro he
    have he2 : List.replicate 3800 'a' = c8text := he
    have h1 := congrArg List.length he2
    rw [hrep, hlen] at h1
    simp at h1

theorem claim8_witness :
    (0 < 2) ∧ (([['a', 'b'], ['c']] : List (List Char)) ≠ []) ∧
    (∀ l ∈ ([['a', 'b'], ['c']] : List (List Char)),
      l ≠ [] ∧ l.length ≤ 2 ∧ ¬ ('\n' ∈ l)) ∧
    String.intercalate ("\n")
        (chunkTelegramMessage (⟨joinNl [['a', 'b'], ['c']]⟩ : String) 2)
      = (⟨joinNl [['a', 'b'], ['c']]⟩ : String) :=
  ⟨by decide, by decide, by decide,
   claim8_amended.2 [['a', 'b'], ['c']] 2 (by decide) (by decide) (by decide)⟩

end Monitor
